import Mathlib

/-!
# Verification of the bid-leveling pipeline

Shallow embedding, in Lean 4, of the core of the bid-leveling worker
(`src/unnamed/part_004`, the `/api/level/worker` route) together with the
Division-23 synonym dictionary (`src/src/lib/scope/d23.ts`), plus theorems
settling the claims of `CLAIMS.json` about it.

Modelling conventions:

* JavaScript strings are Lean `String`s (all concrete inputs used below are
  ASCII, where JS UTF-16 length, `toLowerCase`, `trim` and slicing agree with
  the Lean counterparts defined here).
* JS regular expressions are embedded through a small backtracking matcher
  (`Matcher` below): a matcher sends an input character list to the list of
  possible remainders after a match, in the engine preference order
  (greedy quantifiers produce longest-first alternatives, alternations are
  tried left to right), so `.test`-style use is emptiness of that list and
  leftmost-match scanning tries every start position in order.
  The JS `\s` class is modelled by ASCII whitespace (space, tab, newline,
  carriage return, form feed, vertical tab); exotic Unicode whitespace is not
  modelled, and none of the concrete inputs below contains it.
* JS numbers reaching the logic modelled here originate from `JSON.parse` and
  from digit-string parsing, so they are finite decimal values; they are
  modelled as `ℚ`.  `null`/`undefined`/absent fields are `Option.none`.
* JS objects and `Map`s used as dictionaries are association lists with
  insertion-order iteration and update-in-place on key collision (`objSet`),
  matching the JS behaviour for the (non integer-like) string keys that occur.
-/

namespace BidLevel

/-! ## Basic character and string utilities -/

/-- ASCII whitespace, modelling the JS `\s` class (see module docstring). -/
def jsWS (c : Char) : Bool :=
  c = ' ' || c = '\t' || c = '\n' || c = '\r' || c = Char.ofNat 12 || c = Char.ofNat 11

/-- The JS `\w` class: `[A-Za-z0-9_]`. -/
def isWordChar (c : Char) : Bool :=
  (('a' ≤ c && c ≤ 'z') || ('A' ≤ c && c ≤ 'Z') || ('0' ≤ c && c ≤ '9') || c = '_')

/-- `[a-z]` (patterns are matched against lowercased text). -/
def isLowerAZ (c : Char) : Bool := 'a' ≤ c && c ≤ 'z'

/-- `[0-9]`. -/
def isDigitC (c : Char) : Bool := '0' ≤ c && c ≤ '9'

/-- The apostrophe character, written via its code point. -/
def aposC : Char := Char.ofNat 39

/-- The bullet character `U+2022` appearing in the worker's character classes. -/
def bulletC : Char := Char.ofNat 0x2022

/-- Lowercasing, modelling JS `toLowerCase` on the ASCII inputs used here. -/
def lowerS (s : String) : String := String.mk (s.data.map Char.toLower)

/-- Uppercasing, modelling JS `toUpperCase` on ASCII. -/
def upperS (s : String) : String := String.mk (s.data.map Char.toUpper)

/-- Drop leading JS whitespace. -/
def trimLeft (cs : List Char) : List Char :=
  cs.dropWhile (fun c => jsWS c)

/-- JS `trim()`: strip whitespace from both ends. -/
def trimWS (s : String) : String :=
  String.mk ((trimLeft ((trimLeft s.data.reverse)).reverse))

/-- JS `slice(0, n)` on strings. -/
def takeS (n : Nat) (s : String) : String := String.mk (s.data.take n)

/-- JS string length (UTF-16 units; equal to the character count on the ASCII
inputs used here). -/
def lenS (s : String) : Nat := s.data.length

/-- Split on the JS regex `/\r?\n/`: `\n` or `\r\n` separate lines, a lone
`\r` does not. -/
def splitLinesAux : List Char → List Char → List String
  | [], acc => [String.mk acc.reverse]
  | '\n' :: rest, acc => String.mk acc.reverse :: splitLinesAux rest []
  | '\r' :: '\n' :: rest, acc => String.mk acc.reverse :: splitLinesAux rest []
  | c :: rest, acc => splitLinesAux rest (c :: acc)

/-- JS `text.split(/\r?\n/)`. -/
def splitLinesJS (s : String) : List String := splitLinesAux s.data []

/-- Replace every run of characters of class `p` by a single space; the flag
records whether the previous character was part of such a run. -/
def classRunsAux (p : Char → Bool) : Bool → List Char → List Char
  | _, [] => []
  | inRun, c :: rest =>
    if p c then
      if inRun then classRunsAux p true rest else ' ' :: classRunsAux p true rest
    else c :: classRunsAux p false rest

/-- Replace every run of characters of class `p` by a single space
(used for `replace(/[_\-\t]+/g, ' ')` and `replace(/\s+/g, ' ')`). -/
def classRunsToSpace (p : Char → Bool) (cs : List Char) : List Char :=
  classRunsAux p false cs

/-- Collapse every run of JS whitespace into a single space
(the `replace(/\s+/g, ' ')` step). -/
def collapseWS (cs : List Char) : List Char :=
  classRunsToSpace (fun c => jsWS c) cs

/-- Infix test on character lists. -/
def isInfixL (needle : List Char) : List Char → Bool
  | [] => needle.isPrefixOf []
  | c :: rest => needle.isPrefixOf (c :: rest) || isInfixL needle rest

/-- First-occurrence de-duplication, modelling iteration over a JS `Set`. -/
def dedupFirst (l : List String) : List String :=
  l.foldl (fun acc s => if s ∈ acc then acc else acc ++ [s]) []

/-- JS substring containment (`String.includes`). -/
def includesS (hay needle : String) : Bool :=
  isInfixL needle.data hay.data

/-! ## A small backtracking regex matcher

A `Matcher` maps an input to the list of possible remainders after a match at
the start of the input, in preference order: alternatives left to right,
greedy quantifiers longest first.  A JS `re.test` anchored at the current
position succeeds iff the remainder list is nonempty; search-anywhere tries
each start position left to right. -/

abbrev Matcher := List Char → List (List Char)

def joinMap (f : α → List β) : List α → List β
  | [] => []
  | a :: as => f a ++ joinMap f as

/-- Match the empty pattern. -/
def mEps : Matcher := fun cs => [cs]

/-- Match one character of a class. -/
def mCls (p : Char → Bool) : Matcher
  | [] => []
  | c :: rest => if p c then [rest] else []

/-- Match one literal character. -/
def mCh (x : Char) : Matcher := mCls (fun c => c = x)

/-- Match a literal string. -/
def mLit (s : String) : Matcher :=
  fun cs => if s.data.isPrefixOf cs then [cs.drop s.data.length] else []

/-- Sequencing. -/
def mSeq (a b : Matcher) : Matcher := fun cs => joinMap b (a cs)

/-- Alternation, left preferred. -/
def mAlt (a b : Matcher) : Matcher := fun cs => a cs ++ b cs

/-- `a?` (greedy). -/
def mOpt (a : Matcher) : Matcher := fun cs => a cs ++ [cs]

/-- Remainders after consuming `0, 1, 2, …` leading characters of class `p`,
shortest-consumed first. -/
def runSplits (p : Char → Bool) : List Char → List (List Char)
  | [] => [[]]
  | c :: rest =>
    if p c then (c :: rest) :: runSplits p rest else [c :: rest]

/-- `p*` over a character class (greedy: longest consumption first). -/
def mStar (p : Char → Bool) : Matcher := fun cs => (runSplits p cs).reverse

/-- `p+` over a character class (greedy). -/
def mPlus (p : Char → Bool) : Matcher := mSeq (mCls p) (mStar p)

/-- `p{n}`: exactly `n` characters of a class. -/
def mRep (p : Char → Bool) : Nat → Matcher
  | 0 => mEps
  | n + 1 => mSeq (mCls p) (mRep p n)

/-- `p{n,}`: at least `n` characters of a class (greedy). -/
def mAtLeast (p : Char → Bool) (n : Nat) : Matcher := mSeq (mRep p n) (mStar p)

/-- The `$` anchor. -/
def mEnd : Matcher := fun cs => if cs.isEmpty then [[]] else []

/-- A `\b` placed after a word character: succeeds iff the input is exhausted
or continues with a non-word character. -/
def mWordEndB : Matcher
  | [] => [[]]
  | c :: rest => if isWordChar c then [] else [(c :: rest)]

/-- Anchored-at-start test (`^…` patterns without `$` still constrain only a
prefix, which is what a nonempty remainder list captures). -/
def mTest (m : Matcher) (s : String) : Bool := !(m s.data).isEmpty

/-- Search-anywhere test; when `needB` is set, a match may only start at a
position preceded by a non-word character (a leading `\b` for patterns that
begin with a word character). -/
def searchAux (needB : Bool) (m : Matcher) : Option Char → List Char → Bool
  | prev, cs =>
    let okHere := (!needB || (match prev with
      | none => true
      | some c => !isWordChar c)) && !(m cs).isEmpty
    match cs with
    | [] => okHere
    | c :: rest => okHere || searchAux needB m (some c) rest

/-- `re.test` for an unanchored pattern. -/
def mSearch (m : Matcher) (s : String) : Bool := searchAux false m none s.data

/-- `re.test` for a pattern beginning with `\b` before a word character. -/
def mSearchWB (m : Matcher) (s : String) : Bool := searchAux true m none s.data

/-- Composite: `\bLIT\b` search for a literal beginning and ending in word
characters. -/
def searchWord (w : String) (s : String) : Bool :=
  mSearchWB (mSeq (mLit w) mWordEndB) s

/-! ## The Division-23 dictionary (`src/src/lib/scope/d23.ts`) -/

/-- `normalize` of `d23.ts`: lowercase, replace every character outside
`[a-z0-9\s.\-]` by a space, collapse whitespace, trim. -/
def d23normalize (text : String) : String :=
  let low := (lowerS text).data
  let repl := low.map (fun c =>
    if isLowerAZ c || isDigitC c || jsWS c || c = '.' || c = '-' then c else ' ')
  trimWS (String.mk (collapseWS repl))

/-- `DIV23_SCOPE` of `d23.ts`: the canonical name and synonym list of each
dictionary item, in source order. -/
def DIV23_SCOPE : List (String × List String) :=
  [ ("HVAC equipment", ["ahu", "air handling unit", "air handler", "hvac unit", "package unit", "rooftop unit", "rtu", "fan coil", "heat pump", "condensing unit"]),
    ("VRF/VRV system", ["vrf", "vrv", "variable refrigerant", "multi split"]),
    ("Ductwork", ["duct", "ducting", "sheet metal"]),
    ("Air distribution", ["diffuser", "register", "grille", "vav", "variable air volume", "terminal unit"]),
    ("Temperature controls", ["controls", "bms", "ddc", "thermostat", "building automation"]),
    ("Testing & balancing", ["testing and balancing", "tab", "air balance", "water balance"]),
    ("Mechanical insulation", ["insulation", "duct wrap", "pipe insulation"]),
    ("Condensate piping", ["condensate", "condensate drain"]),
    ("Refrigerant piping", ["refrigerant piping", "line set", "lineset"]),
    ("Controls integration", ["controls integration", "bms integration"]),
    ("Demolition", ["demo", "remove existing", "removal of existing"]),
    ("Crane & rigging", ["crane", "rigging", "hoisting"]),
    ("Startup & commissioning", ["startup", "start up", "commissioning"]),
    ("Shop drawings", ["shop drawing", "submittal", "submittals"]),
    ("Title 24 documentation", ["title 24", "energy compliance", "comcheck"]),
    ("Seismic bracing", ["seismic", "seismic restraints", "restraint"]),
    ("BIM/3D coordination", ["bim", "3d coordination", "navisworks", "clash detection"]),
    ("Permits & inspections", ["permit", "inspection", "ahj"]),
    ("Controls programming", ["controls programming", "sequence of operations"]) ]

/-- Assignment into a JS object / `Map`: overwrite in place on an existing
key, else append (insertion order is preserved on overwrite). -/
def objSetS (m : List (String × String)) (k v : String) : List (String × String) :=
  match m with
  | [] => [(k, v)]
  | (k₀, v₀) :: rest =>
    if k₀ = k then (k₀, v) :: rest else (k₀, v₀) :: objSetS rest k v

/-- Key lookup in a JS object / `Map`. -/
def objGetS (m : List (String × String)) (k : String) : Option String :=
  match m with
  | [] => none
  | (k₀, v₀) :: rest => if k₀ = k then some v₀ else objGetS rest k

/-- `buildSynonymIndex` of `d23.ts`: for each dictionary item, index the
normalized name and every normalized synonym to the canonical name. -/
def buildSynonymIndex (dict : List (String × List String)) : List (String × String) :=
  dict.foldl (fun idx item =>
    let idx₁ := objSetS idx (d23normalize item.1) item.1
    item.2.foldl (fun m s => objSetS m (d23normalize s) item.1) idx₁) []

/-- `canonize` of `d23.ts`: exact lookup of the normalized phrase, else the
first index key (in insertion order) of length ≥ 3 contained in the phrase. -/
def canonize (dictIdx : List (String × String)) (phrase : String) : Option String :=
  let n := d23normalize phrase
  let exact := match objGetS dictIdx n with
    | some v => if v = "" then none else some v  -- `if (dictIdx[n])` truthiness
    | none => none
  match exact with
  | some v => some v
  | none =>
    match dictIdx.find? (fun kv => includesS n kv.1 && decide (3 ≤ lenS kv.1)) with
    | some kv => some kv.2
    | none => none

/-- The synonym index the worker builds once at startup
(`buildSynonymIndex(DIV23_SCOPE)`). -/
def d23Index : List (String × String) := buildSynonymIndex DIV23_SCOPE

/-! ## Additional matcher helpers -/

/-- Sequence a list of matchers. -/
def mSeqL : List Matcher → Matcher
  | [] => mEps
  | m :: ms => mSeq m (mSeqL ms)

/-- Alternation over a list, left preferred. -/
def mAltL : List Matcher → Matcher
  | [] => fun _ => []
  | m :: ms => mAlt m (mAltL ms)

/-- Case-insensitive literal (for `/…/i` patterns; literals are written in
lowercase). -/
def mLitCI (s : String) : Matcher := mSeqL (s.data.map (fun x => mCls (fun c => c.toLower = x)))

/-- `\s*`. -/
def wsStar : Matcher := mStar (fun c => jsWS c)

/-- `\s+`. -/
def wsPlus : Matcher := mPlus (fun c => jsWS c)

/-- Drop the first match of an anchored pattern (JS
`s.replace(/^…/, '')` with a pattern that cannot match farther right). -/
def dropM (m : Matcher) (s : String) : String :=
  match m s.data with
  | r :: _ => String.mk r
  | [] => s

/-- Drop the first match of an unanchored pattern that must start at a word
boundary (JS `s.replace(/\b…/i, '')`): keep the prefix, drop the matched
span, keep the remainder. -/
def dropSearchWBAux (m : Matcher) : Option Char → List Char → List Char
  | _, [] => []
  | prev, c :: rest =>
    let bOK := match prev with
      | none => true
      | some p => !isWordChar p
    if bOK then
      match m (c :: rest) with
      | r :: _ => r
      | [] => c :: dropSearchWBAux m (some c) rest
    else c :: dropSearchWBAux m (some c) rest

/-- See `dropSearchWBAux`. -/
def dropSearchWB (m : Matcher) (s : String) : String :=
  String.mk (dropSearchWBAux m none s.data)

/-! ## Money parsing (`parseMoney`, `findTotalInText`, worker lines 154-184) -/

/-- Numeric value of a digit list. -/
def digitsVal (cs : List Char) : Nat :=
  cs.foldl (fun n c => n * 10 + (c.toNat - 48)) 0

/-- Greedy match of `\d+(?:\.\d{2})?` at the start of the input, returning
the value and the rest. -/
def matchNum (cs : List Char) : Option (ℚ × List Char) :=
  let ds := cs.takeWhile (fun c => isDigitC c)
  if ds.isEmpty then none
  else
    let rest := cs.drop ds.length
    match rest with
    | '.' :: d1 :: d2 :: r2 =>
      if isDigitC d1 && isDigitC d2 then
        some ((digitsVal ds : ℚ) + (digitsVal [d1, d2] : ℚ) / 100, r2)
      else some ((digitsVal ds : ℚ), rest)
    | _ => some ((digitsVal ds : ℚ), rest)

/-- Leftmost match of `/\$?(\d+(?:\.\d{2})?)/` (the value of the capture). -/
def pmScan : List Char → Option ℚ
  | [] => none
  | c :: rest =>
    match (if c = '$' then matchNum rest else matchNum (c :: rest)) with
    | some (v, _) => some v
    | none => pmScan rest

/-- `parseMoney` of the worker: strip `[,\s]`, then take the first
`\$?(\d+(?:\.\d{2})?)` match (always a finite number when it exists). -/
def parseMoney (s : String) : Option ℚ :=
  pmScan (s.data.filter (fun c => !(c = ',' || jsWS c)))

/-- The keyword alternation of the primary total regex
`(total\s*(?:base\s*)?(?:bid|price|amount)|base\s*(?:bid|price)\s*(?:total)?|bid\s*(?:amount|price)|proposal\s*(?:total|amount|price)|contract\s*amount)`
(matched against lowercased text). -/
def ftKw : Matcher :=
  mAltL
    [ mSeqL [mLit "total", wsStar, mOpt (mSeq (mLit "base") wsStar),
        mAltL [mLit "bid", mLit "price", mLit "amount"]],
      mSeqL [mLit "base", wsStar, mAlt (mLit "bid") (mLit "price"), wsStar,
        mOpt (mLit "total")],
      mSeqL [mLit "bid", wsStar, mAlt (mLit "amount") (mLit "price")],
      mSeqL [mLit "proposal", wsStar, mAltL [mLit "total", mLit "amount", mLit "price"]],
      mSeqL [mLit "contract", wsStar, mLit "amount"] ]

/-- The separator `\s*[:\-]?\s*\$?\s*` of the primary total regex. -/
def ftSep : Matcher :=
  mSeqL [wsStar, mOpt (mCls (fun c => c = ':' || c = '-')), wsStar, mOpt (mCh '$'), wsStar]

/-- Greedy capture of `([0-9][\d,]*(?:\.\d{2})?)` at the start of the input:
the captured characters and the rest. -/
def numCapture : List Char → Option (List Char × List Char)
  | [] => none
  | c :: rest =>
    if isDigitC c then
      let run := rest.takeWhile (fun d => isDigitC d || d = ',')
      let r1 := rest.drop run.length
      match r1 with
      | '.' :: d1 :: d2 :: r2 =>
        if isDigitC d1 && isDigitC d2 then some (c :: run ++ ['.', d1, d2], r2)
        else some (c :: run, r1)
      | _ => some (c :: run, r1)
    else none

/-- Try the full primary total pattern at the current position: keyword, then
separator, then number (backtracking through the keyword/separator options in
engine order), returning `parseMoney` of the capture and the position after
the match. -/
def ftTryAt (cs : List Char) : Option (Option ℚ × List Char) :=
  ((mSeq ftKw ftSep) cs).findSome? (fun r =>
    (numCapture r).map (fun p => (parseMoney (String.mk p.1), p.2)))

/-- The `while ((m = re.exec(text)) !== null)` loop of `findTotalInText`:
scan left to right, resume after each match, keep the last parsed value.
The fuel is the input length + 1; every step consumes at least one
character, so the fuel never runs out before the input does. -/
def ftScanAux : Nat → List Char → Option ℚ → Option ℚ
  | 0, _, best => best
  | _ + 1, [], best => best
  | fuel + 1, c :: rest, best =>
    match ftTryAt (c :: rest) with
    | some (val, after) =>
      ftScanAux fuel after (match val with | some v => some v | none => best)
    | none => ftScanAux fuel rest best

/-- The fallback keyword regex
`(base\s*bid|base\s*price|total\s*bid|total\s*price|bid\s*amount|proposal\s*(?:total|amount|price))`. -/
def fbKw : Matcher :=
  mAltL
    [ mSeqL [mLit "base", wsStar, mLit "bid"],
      mSeqL [mLit "base", wsStar, mLit "price"],
      mSeqL [mLit "total", wsStar, mLit "bid"],
      mSeqL [mLit "total", wsStar, mLit "price"],
      mSeqL [mLit "bid", wsStar, mLit "amount"],
      mSeqL [mLit "proposal", wsStar, mAltL [mLit "total", mLit "amount", mLit "price"]] ]

/-- First match of `/\$\s*([0-9][\d,]*(?:\.\d{2})?)/` in a line: the capture. -/
def moneyScan : List Char → Option (List Char)
  | [] => none
  | '$' :: rest =>
    match numCapture (rest.dropWhile (fun c => jsWS c)) with
    | some (cap, _) => some cap
    | none => moneyScan rest
  | _ :: rest => moneyScan rest

/-- The per-line fallback loop of `findTotalInText`. -/
def fbLines : List String → Option ℚ
  | [] => none
  | ln :: rest =>
    if mSearch fbKw (lowerS ln) then
      match moneyScan ln.data with
      | some cap =>
        match parseMoney (String.mk cap) with
        | some v => some v
        | none => fbLines rest
      | none => fbLines rest
    else fbLines rest

/-- `findTotalInText` of the worker: primary keyword-amount regex over the
whole text (last match wins), else the per-line fallback. -/
def findTotalInText (text : String) : Option ℚ :=
  let low := (lowerS text).data
  match ftScanAux (low.length + 1) low none with
  | some v => some v
  | none => fbLines (splitLinesJS text)

/-! ## Alternate-line normalization (worker lines 205-232, 861-871) -/

/-- `capitalizeFirst` of the worker. -/
def capitalizeFirst (s : String) : String :=
  match s.data with
  | [] => s
  | c :: rest => String.mk (c.toUpper :: rest)

/-- Match `\$\s*<?\s*[0-9][\d,\s]*(?:\.\d{2})?\s*>?` at the start of the
input; on success return the rest of the input after the match. -/
def altAmountAt (cs : List Char) : Option (List Char) :=
  match cs with
  | '$' :: rest =>
    let r1 := rest.dropWhile (fun c => jsWS c)
    let r2 := match r1 with
      | '<' :: t => t.dropWhile (fun c => jsWS c)
      | _ => r1
    match r2 with
    | c :: t =>
      if isDigitC c then
        let run := t.takeWhile (fun d => isDigitC d || d = ',' || jsWS d)
        let r3 := t.drop run.length
        let r4 := match r3 with
          | '.' :: d1 :: d2 :: u => if isDigitC d1 && isDigitC d2 then u else r3
          | _ => r3
        let r5 := r4.dropWhile (fun c => jsWS c)
        some (match r5 with
          | '>' :: u => u
          | _ => r5)
      else none
    | [] => none
  | _ => none

/-- Global replacement of dollar amounts by a space
(`t.replace(/\$\s*<?\s*[0-9][\d,\s]*(?:\.\d{2})?\s*>?/g, ' ')`); every step
consumes at least one character, so fuel = length + 1 never runs out early. -/
def replaceAltAmountsAux : Nat → List Char → List Char
  | 0, cs => cs
  | _ + 1, [] => []
  | fuel + 1, c :: rest =>
    match altAmountAt (c :: rest) with
    | some after => ' ' :: replaceAltAmountsAux fuel after
    | none => c :: replaceAltAmountsAux fuel rest

/-- See `replaceAltAmountsAux`. -/
def replaceAltAmounts (cs : List Char) : List Char :=
  replaceAltAmountsAux (cs.length + 1) cs

/-- `/^\s*(the\s+)?(add|deduct)\s+alternate\s*(to|for)?\s*/i`. -/
def altLeadPhrase : Matcher :=
  mSeqL [wsStar, mOpt (mSeq (mLitCI "the") wsPlus),
    mAlt (mLitCI "add") (mLitCI "deduct"), wsPlus, mLitCI "alternate", wsStar,
    mOpt (mAlt (mLitCI "to") (mLitCI "for")), wsStar]

/-- `/^\s*alternate\s*:?\s*/i`. -/
def altLeadAlternate : Matcher :=
  mSeqL [wsStar, mLitCI "alternate", wsStar, mOpt (mCh ':'), wsStar]

/-- `/^\s*at\s*/i`. -/
def altLeadAt : Matcher := mSeqL [wsStar, mLitCI "at", wsStar]

/-- `/^\s*(?:\d+\.|[ivxIVX]+\.|\([a-z0-9]+\))\s*/` (case sensitive). -/
def altLeadNumbering : Matcher :=
  mSeqL [wsStar,
    mAltL
      [ mSeq (mPlus (fun c => isDigitC c)) (mCh '.'),
        mSeq (mPlus (fun c => c = 'i' || c = 'v' || c = 'x' || c = 'I' || c = 'V' || c = 'X')) (mCh '.'),
        mSeqL [mCh '(', mPlus (fun c => isLowerAZ c || isDigitC c), mCh ')'] ],
    wsStar]

/-- `/\bthe\s+add\s+alternate\s+(?:to|for)\s+/i`. -/
def theAddAltPat : Matcher :=
  mSeqL [mLitCI "the", wsPlus, mLitCI "add", wsPlus, mLitCI "alternate", wsPlus,
    mAlt (mLitCI "to") (mLitCI "for"), wsPlus]

/-- `/\bis\s*:?\s*$/i`. -/
def trailingIsPat : Matcher :=
  mSeqL [mLitCI "is", wsStar, mOpt (mCh ':'), wsStar, mEnd]

/-- `/^\s*the\s+/i`. -/
def leadThePat : Matcher := mSeqL [wsStar, mLitCI "the", wsPlus]

/-- `/^unit\b/i`. -/
def leadUnitPat : Matcher := mSeq (mLitCI "unit") mWordEndB

/-- `normalizeAlternateTitle` of the worker (lines 211-232): normalize an
alternate line to a clean scope row, dropping amounts and boilerplate;
`none` models the `null` returns. -/
def normalizeAlternateTitle (s : String) : Option String :=
  let t0 := trimWS s
  if t0 = "" then none
  else
    let t1 := String.mk (replaceAltAmounts t0.data)
    let t2 := dropM altLeadAlternate (dropM altLeadPhrase t1)
    let t3 := dropM altLeadAt t2
    let t4 := dropM altLeadNumbering t3
    let t5 := dropSearchWB theAddAltPat t4
    let t6 := trimWS (dropSearchWB trailingIsPat t5)
    let t7 := dropM leadThePat t6
    let t8 := trimWS (String.mk (collapseWS t7.data))
    if t8 = "" then none
    else if mTest leadUnitPat (lowerS t8) then none
    else some ("Alternate: " ++ capitalizeFirst t8)

/-- `parseAlt` of the worker (lines 861-871): parse the first dollar amount
(with optional `<` deduct marker), negate on `\bdeduct\b` or `<\s*\$`, and
pair it with the normalized alternate title (`'Alternate'` when the title
normalizes away). -/
def parseAltMoney : List Char → Option (List Char)
  | [] => none
  | '$' :: rest =>
    let r1 := rest.dropWhile (fun c => jsWS c)
    let r2 := match r1 with
      | '<' :: t => t.dropWhile (fun c => jsWS c)
      | _ => r1
    (match r2 with
     | c :: t =>
       if isDigitC c then
         let run := t.takeWhile (fun d => isDigitC d || d = ',' || jsWS d)
         let r3 := t.drop run.length
         match r3 with
         | '.' :: d1 :: d2 :: _ =>
           if isDigitC d1 && isDigitC d2 then some (c :: run ++ ['.', d1, d2])
           else some (c :: run)
         | _ => some (c :: run)
       else parseAltMoney rest
     | [] => none)
  | _ :: rest => parseAltMoney rest

/-- Value of a cleaned decimal digit string (digits with an optional
`.` + two digits), modelling `Number(...)` there. -/
def decValue (cs : List Char) : ℚ :=
  let ds := cs.takeWhile (fun c => isDigitC c)
  match cs.drop ds.length with
  | '.' :: cents => (digitsVal ds : ℚ) + (digitsVal cents : ℚ) / 100
  | _ => (digitsVal ds : ℚ)

/-- See `parseAltMoney`. -/
def parseAlt (s : String) : Option (String × ℚ) :=
  let text := trimWS s
  match parseAltMoney text.data with
  | none => none
  | some cap =>
    let num := decValue (cap.filter (fun c => !(jsWS c || c = ',')))
    let neg := mSearchWB (mSeq (mLitCI "deduct") mWordEndB) (lowerS text)
      || mSearch (mSeqL [mCh '<', wsStar, mCh '$']) text
    let price := if neg then -num else num
    let nm := match normalizeAlternateTitle text with
      | some t => if t = "" then "Alternate" else t
      | none => "Alternate"
    some (nm, price)

/-! ## Junk-line detection (`isJunkLine`, worker lines 247-279) -/

/-- `[a-z\s]` under `/i` on lowercased text. -/
def azWS (c : Char) : Bool := isLowerAZ c || jsWS c

/-- `/^[a-z\s]+(mechanical|construction|engineering)\s*$/i`. -/
def junkCompany : Matcher :=
  mSeqL [mPlus azWS, mAltL [mLit "mechanical", mLit "construction", mLit "engineering"],
    wsStar, mEnd]

/-- `/^\d+\s+[a-z\s]+(ave|avenue|st|street|rd|road|blvd|dr|way|pl|ct)\b/i`. -/
def junkStreet : Matcher :=
  mSeqL [mPlus (fun c => isDigitC c), wsPlus, mPlus azWS,
    mAltL [mLit "ave", mLit "avenue", mLit "st", mLit "street", mLit "rd", mLit "road",
      mLit "blvd", mLit "dr", mLit "way", mLit "pl", mLit "ct"],
    mWordEndB]

/-- `/^[a-z\s]+,\s+(ca|california|ny|tx|fl)\s+\d{5}$/i`. -/
def junkCityState : Matcher :=
  mSeqL [mPlus azWS, mCh ',', wsPlus,
    mAltL [mLit "ca", mLit "california", mLit "ny", mLit "tx", mLit "fl"],
    wsPlus, mRep (fun c => isDigitC c) 5, mEnd]

/-- `[.\-\s]`. -/
def phoneSep (c : Char) : Bool := c = '.' || c = '-' || jsWS c

/-- `/^(phone|fax|tel|office)?\s*:?\s*\(?\d{3}\)?[.\-\s]?\d{3}[.\-\s]?\d{4}\s*$/i`. -/
def junkPhone : Matcher :=
  mSeqL [mOpt (mAltL [mLit "phone", mLit "fax", mLit "tel", mLit "office"]),
    wsStar, mOpt (mCh ':'), wsStar, mOpt (mCh '('), mRep (fun c => isDigitC c) 3,
    mOpt (mCh ')'), mOpt (mCls phoneSep), mRep (fun c => isDigitC c) 3,
    mOpt (mCls phoneSep), mRep (fun c => isDigitC c) 4, wsStar, mEnd]

/-- `/^(license|lic)\s*(number|no|#)?:?\s*\d+\s*$/i`. -/
def junkLicense : Matcher :=
  mSeqL [mAlt (mLit "license") (mLit "lic"), wsStar,
    mOpt (mAltL [mLit "number", mLit "no", mLit "#"]), mOpt (mCh ':'), wsStar,
    mPlus (fun c => isDigitC c), wsStar, mEnd]

/-- `[a-z0-9._%+-]` (email local part). -/
def emailLocal (c : Char) : Bool :=
  isLowerAZ c || isDigitC c || c = '.' || c = '_' || c = '%' || c = '+' || c = '-'

/-- `[a-z0-9.-]` (domain part). -/
def emailDomain (c : Char) : Bool := isLowerAZ c || isDigitC c || c = '.' || c = '-'

/-- `/^[a-z0-9._%+-]+@[a-z0-9.-]+\.[a-z]{2,}$/i`. -/
def junkEmail : Matcher :=
  mSeqL [mPlus emailLocal, mCh '@', mPlus emailDomain, mCh '.',
    mAtLeast (fun c => isLowerAZ c) 2, mEnd]

/-- `/^(dear|attn:|attention:)\s+[a-z\s]+:?\s*$/i`. -/
def junkSalutation : Matcher :=
  mSeqL [mAltL [mLit "dear", mLit "attn:", mLit "attention:"], wsPlus, mPlus azWS,
    mOpt (mCh ':'), wsStar, mEnd]

/-- `/^(www\.|https?:\/\/)[a-z0-9.-]+\.[a-z]{2,}\s*$/i`. -/
def junkURL : Matcher :=
  mSeqL [mAlt (mLit "www.") (mSeqL [mLit "http", mOpt (mCh 's'), mLit "://"]),
    mPlus emailDomain, mCh '.', mAtLeast (fun c => isLowerAZ c) 2, wsStar, mEnd]

/-- `isJunkLine` of the worker: detect standalone letterhead/header junk.
Every sub-pattern is `/i`, so it is matched against the lowercased trimmed
line; the length guards use the trimmed line. -/
def isJunkLine (s : String) : Bool :=
  let trimmed := trimWS s
  if lenS trimmed < 2 then true
  else
    let l := lowerS trimmed
    (mTest junkCompany l && decide (lenS trimmed < 40))
    || (mTest junkStreet l && decide (lenS trimmed < 50))
    || mTest junkCityState l
    || mTest junkPhone l
    || mTest junkLicense l
    || mTest junkEmail l
    || (mTest junkSalutation l && decide (lenS trimmed < 50))
    || mTest junkURL l

/-! ## Scope normalization (`normalizeScope`, worker lines 282-290) -/

/-- The `skip` list of `normalizeScope`. -/
def skipWords : List String :=
  ["total", "subtotal", "tax", "notes", "note", "bid form", "signature", "thank you",
   "proposal", "drawings", "architectural drawings", "mep drawings", "specifications",
   "schedule", "pricing", "valid for", "lead times", "receipt of order", "warranty",
   "contact", "phone", "email", "address"]

/-- `normalizeScope` of the worker: replace `[_\-\t]+` runs by a space,
collapse whitespace, trim; empty, junk and skip-listed results become `''`;
cap at 120 characters. -/
def normalizeScope (s : String) : String :=
  let t := trimWS (String.mk (collapseWS
    (classRunsToSpace (fun c => c = '_' || c = '-' || c = '\t') s.data)))
  if t = "" then ""
  else if isJunkLine t then ""
  else if lowerS t ∈ skipWords then ""
  else if 120 < lenS t then takeS 120 t else t

/-! ## Section detection (`detectSection`, worker lines 332-344) -/

/-- `\w*`. -/
def wordStar : Matcher := mStar (fun c => isWordChar c)

/-- Pattern 1 of `detectSection`:
`(\bscope\b|scope\s*of\s*work|^\s*sco?pe|general\s*(mechanical|hvac)\s*inclusions?|^\s*work\s*included?)`. -/
def secScope (l : String) : Bool :=
  searchWord "scope" l
  || mSearch (mSeqL [mLit "scope", wsStar, mLit "of", wsStar, mLit "work"]) l
  || mTest (mSeqL [wsStar, mLit "sc", mOpt (mCh 'o'), mLit "pe"]) l
  || mSearch (mSeqL [mLit "general", wsStar, mAlt (mLit "mechanical") (mLit "hvac"),
       wsStar, mLit "inclusion", mOpt (mCh 's')]) l
  || mTest (mSeqL [wsStar, mLit "work", wsStar, mLit "include", mOpt (mCh 'd')]) l

/-- Pattern 2:
`(\binclusions?\b|^\s*inclu\w*|^\s*inclusio\w*|^\s*included?\b|what'?s?\s*included)`. -/
def secInclusions (l : String) : Bool :=
  mSearchWB (mSeqL [mLit "inclusion", mOpt (mCh 's'), mWordEndB]) l
  || mTest (mSeqL [wsStar, mLit "inclu", wordStar]) l
  || mTest (mSeqL [wsStar, mLit "inclusio", wordStar]) l
  || mTest (mSeqL [wsStar, mLit "include", mOpt (mCh 'd'), mWordEndB]) l
  || mSearch (mSeqL [mLit "what", mOpt (mCh aposC), mOpt (mCh 's'), wsStar,
       mLit "included"]) l

/-- Pattern 3:
`(\bexclusions?\b|^\s*exclu\w*|^\s*excluded?\b|not\s*included|what'?s?\s*excluded)`. -/
def secExclusions (l : String) : Bool :=
  mSearchWB (mSeqL [mLit "exclusion", mOpt (mCh 's'), mWordEndB]) l
  || mTest (mSeqL [wsStar, mLit "exclu", wordStar]) l
  || mTest (mSeqL [wsStar, mLit "exclude", mOpt (mCh 'd'), mWordEndB]) l
  || mSearch (mSeqL [mLit "not", wsStar, mLit "included"]) l
  || mSearch (mSeqL [mLit "what", mOpt (mCh aposC), mOpt (mCh 's'), wsStar,
       mLit "excluded"]) l

/-- Pattern 4: `(\ballowances?\b|^\s*allowan\w*)`. -/
def secAllowances (l : String) : Bool :=
  mSearchWB (mSeqL [mLit "allowance", mOpt (mCh 's'), mWordEndB]) l
  || mTest (mSeqL [wsStar, mLit "allowan", wordStar]) l

/-- Pattern 5: `(\balternates?\b|^\s*alternat\w*)`. -/
def secAlternates (l : String) : Bool :=
  mSearchWB (mSeqL [mLit "alternate", mOpt (mCh 's'), mWordEndB]) l
  || mTest (mSeqL [wsStar, mLit "alternat", wordStar]) l

/-- Pattern 6:
`(equipment\s*(list|schedule)|bill\s*of\s*materials|schedule\s*of\s*values|materials\s*list)`. -/
def secEquipment (l : String) : Bool :=
  mSearch (mSeqL [mLit "equipment", wsStar, mAlt (mLit "list") (mLit "schedule")]) l
  || mSearch (mSeqL [mLit "bill", wsStar, mLit "of", wsStar, mLit "materials"]) l
  || mSearch (mSeqL [mLit "schedule", wsStar, mLit "of", wsStar, mLit "values"]) l
  || mSearch (mSeqL [mLit "materials", wsStar, mLit "list"]) l

/-- Pattern 7:
`(\bservices\b|commissioning|testing\s*&?\s*balancing|^\s*clarifications?\b|^\s*notes?\b)`. -/
def secServices (l : String) : Bool :=
  searchWord "services" l
  || mSearch (mLit "commissioning") l
  || mSearch (mSeqL [mLit "testing", wsStar, mOpt (mCh '&'), wsStar, mLit "balancing"]) l
  || mTest (mSeqL [wsStar, mLit "clarification", mOpt (mCh 's'), mWordEndB]) l
  || mTest (mSeqL [wsStar, mLit "note", mOpt (mCh 's'), mWordEndB]) l

/-- `detectSection` of the worker: the first matching section pattern, in
source order, against the lowercased trimmed line. -/
def detectSection (line : String) : Option String :=
  let l := lowerS (trimWS line)
  if secScope l then some "scope"
  else if secInclusions l then some "inclusions"
  else if secExclusions l then some "exclusions"
  else if secAllowances l then some "allowances"
  else if secAlternates l then some "alternates"
  else if secEquipment l then some "equipment"
  else if secServices l then some "services"
  else none

/-- The bullet/number prefix cleanup `replace(/^\s*[\d\-\*•]+[\.\)]*\s*/, '')`
applied to lines harvested into the structured qualification lists
(worker lines 644, 648, 652). -/
def bulletStrip (s : String) : String :=
  let cs := s.data
  let r1 := cs.dropWhile (fun c => jsWS c)
  let run := r1.takeWhile (fun c => isDigitC c || c = '-' || c = '*' || c = bulletC)
  if run.isEmpty then s
  else
    let r2 := (r1.drop run.length).dropWhile (fun c => c = '.' || c = ')')
    String.mk (r2.dropWhile (fun c => jsWS c))

/-! ## Generic association lists (JS objects / `Map`s with non-string values) -/

/-- JS object / `Map` assignment: overwrite in place on key collision
(keeping the original position), else append. -/
def alistSet (m : List (String × α)) (k : String) (v : α) : List (String × α) :=
  match m with
  | [] => [(k, v)]
  | (k₀, v₀) :: rest =>
    if k₀ = k then (k₀, v) :: rest else (k₀, v₀) :: alistSet rest k v

/-- JS object / `Map` lookup. -/
def alistGet (m : List (String × α)) (k : String) : Option α :=
  match m with
  | [] => none
  | (k₀, v₀) :: rest => if k₀ = k then some v₀ else alistGet rest k

/-! ## The fuzzy matcher (worker lines 824-857) -/

/-- `STOPWORDS` of the worker. -/
def STOPWORDS : List String :=
  ["furnish", "install", "provide", "provided", "providing", "supply", "supplied",
   "includes", "including", "include", "with", "and", "or", "for", "of", "the", "a",
   "an", "by", "others", "new", "existing", "system", "systems", "unit", "units",
   "type", "per", "as", "shown", "on", "perplans", "plan", "plans", "above",
   "scope", "work", "complete", "all"]

/-- `BRAND_WORDS` of the worker. -/
def BRAND_WORDS : List String := ["daikin", "marley", "greenheck", "panasonic", "bacnet"]

/-- Remove parenthesized groups (`replace(/\([^)]*\)/g, ' ')`): from each `(`
to the first following `)`; an unclosed `(` is kept.  Every step consumes at
least one character, so fuel = length + 1 never runs out early. -/
def rmParensAux : Nat → List Char → List Char
  | 0, cs => cs
  | _ + 1, [] => []
  | fuel + 1, '(' :: rest =>
    if rest.any (fun c => c = ')') then
      ' ' :: rmParensAux fuel ((rest.dropWhile (fun c => c ≠ ')')).drop 1)
    else '(' :: rmParensAux fuel rest
  | fuel + 1, c :: rest => c :: rmParensAux fuel rest

/-- `normForMatch` of the worker: lowercase, remove parenthesized groups,
keep only `[a-z\s/]` (slashes survive for VRF/VRV-style names), collapse
whitespace, trim. -/
def normForMatch (s : String) : String :=
  let low := (lowerS s).data
  let noPar := rmParensAux (low.length + 1) low
  let repl := noPar.map (fun c => if isLowerAZ c || jsWS c || c = '/' then c else ' ')
  trimWS (String.mk (collapseWS repl))

/-- `stem` of the worker (`w.replace(/(ers|ies|s)$/, '')`): strip one of the
suffixes `ers`, `ies`, `s` (the leftmost-starting match, which is the
3-character suffix when one of the first two applies). -/
def stem (w : String) : String :=
  let cs := w.data
  if ['e', 'r', 's'].isSuffixOf cs || ['i', 'e', 's'].isSuffixOf cs then
    String.mk (cs.take (cs.length - 3))
  else if ['s'].isSuffixOf cs then String.mk (cs.take (cs.length - 1))
  else w

/-- `tokens` of the worker: split the normalized string on single spaces,
keep words of length > 2 that are neither stopwords nor brand words, stem,
and de-duplicate (a JS `Set`). -/
def tokens (s : String) : List String :=
  dedupFirst ((((normForMatch s).splitOn " ").filter
    (fun w => decide (2 < lenS w) && !(w ∈ STOPWORDS) && !(w ∈ BRAND_WORDS))).map stem)

/-- `jaccard` of the worker on de-duplicated token lists:
`|a ∩ b| / max(|a ∪ b|, 1)` (the `|| 1` guards the empty union). -/
def jaccard (a b : List String) : ℚ :=
  let inter := (a.filter (fun t => t ∈ b)).length
  let union := (dedupFirst (a ++ b)).length
  (inter : ℚ) / (if union = 0 then 1 else (union : ℚ))

/-- The scanning loop of `nearestCandidate`: track the best score and name;
a nonempty token set contained in a candidate's token set scores 1 and stops
the scan. -/
def nearAux (ta : List String) : List String → ℚ → Option String → (ℚ × Option String)
  | [], best, bn => (best, bn)
  | cand :: rest, best, bn =>
    let tb := tokens cand
    if !ta.isEmpty && ta.all (fun t => t ∈ tb) then (1, some cand)
    else
      let score := jaccard ta tb
      if best < score then nearAux ta rest score (some cand)
      else nearAux ta rest best bn

/-- `nearestCandidate` of the worker over the normalized candidate array:
accept the best candidate when the final score is ≥ 0.2 (the `bestName ||
null` coercion turns an empty best name into `null`). -/
def nearestCandidate (candArr : List String) (name : String) : Option String :=
  let ta := tokens name
  let (best, bn) := nearAux ta candArr 0 none
  if (1 : ℚ) / 5 ≤ best then
    match bn with
    | some c => if c = "" then none else some c
    | none => none
  else none

/-! ## Name-to-candidate mapping (worker lines 535-547) -/

/-- JS `a || b` on string-or-null values (an empty string is falsy). -/
def jsOrStr (a b : Option String) : Option String :=
  match a with
  | some s => if s = "" then b else some s
  | none => b

/-- JS truthiness of a string-or-null value. -/
def jsTruthy (a : Option String) : Option String :=
  match a with
  | some s => if s = "" then none else some s
  | none => none

/-- The `candidateNormToDisplay` map: for each candidate display string,
key `normalizeScope(canonize(s) || s)` (skipping empty keys) with
overwrite-on-collision (`Map.set`, so the last candidate wins). -/
def candNormToDisplay (idx : List (String × String)) (cands : List String) :
    List (String × String) :=
  cands.foldl (fun m s =>
    let canon := match jsOrStr (canonize idx s) (some s) with
      | some c => c
      | none => s
    let norm := normalizeScope canon
    if norm = "" then m else alistSet m norm s) []

/-- `mapToCandidate` of the worker: canonize the name, normalize, and look
up the display candidate (`get(norm) || null`). -/
def mapToCandidate (idx : List (String × String)) (ntd : List (String × String))
    (name : String) : Option String :=
  let canon := match jsOrStr (canonize idx name) (some name) with
    | some c => c
    | none => name
  let norm := normalizeScope canon
  if norm = "" then none else jsTruthy (alistGet ntd norm)

/-! ## Oracle items and per-item resolution (worker lines 808-894) -/

/-- A parsed oracle item as it appears after `JSON.parse`: every field may be
missing or of the wrong type, in which case it is `none`. -/
structure RawItem where
  candidate_index : Option ℚ := none
  name : Option String := none
  status : Option String := none
  price : Option ℚ := none
  evidence : Option String := none
deriving DecidableEq, Repr

/-- A scored item as carried through reconciliation (`PerItem` of the
worker restricted to the fields the downstream logic reads). -/
structure PerItem where
  name : String
  status : String
  price : Option ℚ := none
deriving DecidableEq, Repr

/-- An unmapped oracle item (`Unmapped` of the worker, without the unused
`confidence`). -/
structure UnmappedItem where
  name : String
  evidence : String := ""
deriving DecidableEq, Repr

/-- The item filter (worker lines 810-814): keep entries whose `status` is a
string and which carry a string `name` or a numeric `candidate_index`. -/
def itemFilter (it : RawItem) : Bool :=
  it.status.isSome && (it.name.isSome || it.candidate_index.isSome)

/-- JS `Math.round` (round half toward +∞). -/
def jsRound (q : ℚ) : ℤ := ⌊q + 1 / 2⌋

/-- The canonicalization loop (worker lines 816-819):
`canonize(scopeIndex, it.name)` throws a `TypeError` when `it.name` is not a
string (`undefined.toLowerCase()`), which aborts the whole request; a truthy
result replaces the name. -/
def canonizeName (idx : List (String × String)) (it : RawItem) : Except String RawItem :=
  match it.name with
  | none => .error "TypeError: canonize of undefined name"
  | some nm =>
    .ok { it with name := some (match canonize idx nm with
      | some m => if m = "" then nm else m
      | none => nm) }

/-- Per-item resolution (worker lines 872-894): (a) an in-range rounded
`candidate_index` picks the candidate row directly; otherwise (b)
`mapToCandidate` then (c) `nearestCandidate` on the name; a truthy result is
kept under the resolved display name; otherwise a name whose normalization is
itself a candidate key is kept unchanged; everything else is dropped to the
unmapped bucket with its evidence.  A missing name in the final membership
test is the JS `normalizeScope(undefined)` `TypeError`. -/
def resolveOne (idx : List (String × String)) (cands : List String)
    (candSet : List String) (ntd : List (String × String)) (it : RawItem) :
    Except String (PerItem ⊕ UnmappedItem) :=
  let ev := it.evidence.getD ""
  let byIdx : Option String :=
    match it.candidate_index with
    | some q =>
      let i := jsRound q
      if 1 ≤ i ∧ i ≤ (cands.length : ℤ) then cands.get? (i - 1).toNat else none
    | none => none
  let mappedDisplay : Option String :=
    match jsTruthy byIdx with
    | some d => some d
    | none =>
      match it.name with
      | some nm =>
        if nm = "" then none
        else jsOrStr (mapToCandidate idx ntd nm) (nearestCandidate candSet nm)
      | none => none
  match jsTruthy mappedDisplay with
  | some d => .ok (.inl ⟨d, it.status.getD "undefined", it.price⟩)
  | none =>
    match it.name with
    | some nm =>
      if normalizeScope nm ∈ candSet then .ok (.inl ⟨nm, it.status.getD "undefined", it.price⟩)
      else .ok (.inr ⟨nm, ev⟩)
    | none => .error "TypeError: normalizeScope of undefined"

/-! ## Alternate injection and collapse (worker lines 895-926) -/

/-- Inject heuristically detected alternates (worker lines 896-904): each
parseable alternate whose normalized title is not already among the kept
items is appended as a `not_specified` item carrying the parsed price. -/
def injectAlts (alts : List String) (kept : List PerItem) : List PerItem :=
  alts.foldl (fun ks a =>
    match parseAlt a with
    | none => ks
    | some (nm, pr) =>
      if ks.any (fun k => normalizeScope k.name = normalizeScope nm) then ks
      else ks ++ [⟨nm, "not_specified", some pr⟩]) kept

/-- The status precedence table (`{ included: 3, excluded: 2,
not_specified: 1 }`); other strings index to `undefined`. -/
def precOf (s : String) : Option Nat :=
  if s = "included" then some 3
  else if s = "excluded" then some 2
  else if s = "not_specified" then some 1
  else none

/-- `precedence[a] > precedence[b]` with the JS comparison semantics:
comparisons involving `undefined` are false. -/
def precGT (a b : String) : Bool :=
  match precOf a, precOf b with
  | some x, some y => decide (y < x)
  | _, _ => false

/-- Pre-fill the collapsed map with one `not_specified` row per candidate,
keyed by the normalized candidate name (worker lines 908-913). -/
def prefill (cands : List String) : List (String × PerItem) :=
  cands.foldl (fun m name =>
    alistSet m (normalizeScope name) ⟨name, "not_specified", none⟩) []

/-- One step of the duplicate-collapse loop (worker lines 914-924): skip
empty keys; a missing entry or a strictly higher precedence installs the
item; otherwise a null price is back-filled by a numeric one. -/
def collapseStep (m : List (String × PerItem)) (it : PerItem) :
    List (String × PerItem) :=
  let key := normalizeScope it.name
  if key = "" then m
  else
    match alistGet m key with
    | none => alistSet m key it
    | some prev =>
      if precGT it.status prev.status then alistSet m key it
      else
        match prev.price, it.price with
        | none, some p => alistSet m key { prev with price := some p }
        | _, _ => m

/-- The collapsed map after pre-filling and processing every kept item. -/
def collapsedMapOf (cands : List String) (kept : List PerItem) :
    List (String × PerItem) :=
  kept.foldl collapseStep (prefill cands)

/-- `Array.from(collapsedMap.values())`. -/
def collapseItems (cands : List String) (kept : List PerItem) : List PerItem :=
  (collapsedMapOf cands kept).map Prod.snd

/-! ## Reconciliation (strict pass and zero-result retry pass) -/

/-- Sequential fallible map with first-error semantics (the JS
`for`-loops over the parsed items, which abort the request at the first
thrown `TypeError`). -/
def mapME (f : α → Except ε β) : List α → Except ε (List β)
  | [] => .ok []
  | a :: as =>
    match f a with
    | .error e => .error e
    | .ok b =>
      match mapME f as with
      | .error e => .error e
      | .ok bs => .ok (b :: bs)

/-- The strict-pass reconciliation of one contractor's parsed oracle items
against the candidate list (worker lines 808-926): filter, canonicalize
names, resolve each item, inject heuristic alternates, and collapse onto one
row per candidate key.  Returns (collapsed items, kept items after
injection, dropped unmapped items); an error is the JS `TypeError` on a
name-less item. -/
def reconcile (idx : List (String × String)) (cands : List String)
    (parsedItems : List RawItem) (alts : List String) :
    Except String (List PerItem × List PerItem × List UnmappedItem) := do
  let items0 := parsedItems.filter itemFilter
  let canon ← mapME (canonizeName idx) items0
  let candSet := dedupFirst (cands.map normalizeScope)
  let ntd := candNormToDisplay idx cands
  let resolved ← mapME (resolveOne idx cands candSet ntd) canon
  let kept0 := resolved.filterMap (fun r => match r with
    | .inl k => some k
    | .inr _ => none)
  let dropped := resolved.filterMap (fun r => match r with
    | .inr d => some d
    | .inl _ => none)
  let keptA := injectAlts alts kept0
  let items := collapseItems cands keptA
  return (items, keptA, dropped)

/-- The zero-result retry reconciliation (worker lines 972-1011): same as
the strict pass but with no name-canonicalization loop and no alternate
injection.  In the JS source a `TypeError` thrown here is swallowed by the
surrounding `catch {}` after `items` has already been reassigned to the raw
filtered retry items, whose undefined names then throw inside the merge
loop whenever any matrix row exists; this model surfaces that as a failed
run directly. -/
def reconcileRetry (idx : List (String × String)) (cands : List String)
    (parsedItems : List RawItem) :
    Except String (List PerItem × List PerItem × List UnmappedItem) := do
  let items0 := parsedItems.filter itemFilter
  let candSet := dedupFirst (cands.map normalizeScope)
  let ntd := candNormToDisplay idx cands
  let resolved ← mapME (resolveOne idx cands candSet ntd) items0
  let kept0 := resolved.filterMap (fun r => match r with
    | .inl k => some k
    | .inr _ => none)
  let dropped := resolved.filterMap (fun r => match r with
    | .inr d => some d
    | .inl _ => none)
  let items := collapseItems cands kept0
  return (items, kept0, dropped)

/-! ## Per-contractor scoring (worker lines 549-1035) -/

/-- A document's extracted text fragment (the worker's
`byBidDocs[b.id].texts` entries). -/
structure DocText where
  name : String
  text : String
deriving DecidableEq, Repr

/-- The accumulator of the evidence harvesting loop (worker lines 622-675). -/
structure HAcc where
  sec : Option String := none
  keptRev : List String := []
  inclRev : List String := []
  exclRev : List String := []
  altRev : List String := []

/-- One line of the harvesting loop: skip blank lines; a detected section
header switches the section and is kept as a marker; lines inside the
exclusions / inclusions / alternates sections are harvested (bullet-stripped)
into the structured lists; junk lines are filtered; everything else is kept. -/
def harvestLine (st : HAcc) (line : String) : HAcc :=
  let trimmed := trimWS line
  if trimmed = "" then st
  else
    match detectSection line with
    | some s =>
      { st with
        sec := some s
        keptRev := ("\n=== " ++ upperS s ++ " SECTION ===") :: st.keptRev }
    | none =>
      let st :=
        if st.sec = some "exclusions" ∧ 5 < lenS trimmed then
          let c := bulletStrip trimmed
          if c = "" then st else { st with exclRev := c :: st.exclRev }
        else st
      let st :=
        if st.sec = some "inclusions" ∧ 5 < lenS trimmed then
          let c := bulletStrip trimmed
          if c = "" then st else { st with inclRev := c :: st.inclRev }
        else st
      let st :=
        if st.sec = some "alternates" ∧ 3 < lenS trimmed then
          let c := bulletStrip trimmed
          if c = "" then st else { st with altRev := c :: st.altRev }
        else st
      if isJunkLine line then st
      else { st with keptRev := line :: st.keptRev }

/-- The harvested evidence of one contractor. -/
structure HarvestOut where
  combined : String
  accChars : Nat
  inclusions : List String
  exclusions : List String
  alternates : List String

/-- The per-document harvesting loop: each document's kept lines are joined,
sliced to 10 000 characters and appended to the combined evidence; the loop
stops once the accumulated block size exceeds 200 000 characters.
(The lenient raw-evidence appends of worker lines 704-716 are unreachable:
their guard `evidenceChars < 1500` counts all prompt blocks, and the fixed
instruction block (946+ chars) plus the fixed preface block (1277 chars)
alone always exceed 1500.) -/
def harvestAux : List DocText → Nat → String →
    List String → List String → List String → HarvestOut
  | [], acc, comb, i, e, a => ⟨comb, acc, i, e, a⟩
  | c :: rest, acc, comb, i, e, a =>
    if 200000 < acc then ⟨comb, acc, i, e, a⟩
    else
      let st := (splitLinesJS c.text).foldl harvestLine {}
      let fullText := String.intercalate "\n" st.keptRev.reverse
      let snippet := if 10000 < lenS fullText then takeS 10000 fullText else fullText
      let blockLen := lenS ("=== DOCUMENT: " ++ c.name ++ " ===\n" ++ snippet ++ "\n")
      harvestAux rest (acc + blockLen) (comb ++ "\n" ++ snippet)
        (i ++ st.inclRev.reverse) (e ++ st.exclRev.reverse) (a ++ st.altRev.reverse)

/-- See `harvestAux`. -/
def harvestDocs (texts : List DocText) : HarvestOut :=
  harvestAux texts 0 "" [] [] []

/-- JS truthiness of a number-or-null value (0 is falsy). -/
def jsTruthyNum (a : Option ℚ) : Option ℚ :=
  match a with
  | some x => if x = 0 then none else some x
  | none => none

/-- JS `a || b` on number-or-null values. -/
def jsOrNum (a b : Option ℚ) : Option ℚ :=
  match jsTruthyNum a with
  | some v => some v
  | none => b

/-- The evidence-derived total (worker lines 717-719):
`(combinedEvidence ? findTotalInText(combinedEvidence) : null) ||
(allDocsRaw ? findTotalInText(allDocsRaw) : null)`. -/
def detectedTotalOf (texts : List DocText) : Option ℚ :=
  let combined := (harvestDocs texts).combined
  let allDocsRaw := takeS 200000 (String.intercalate "\n" (texts.map (fun t => t.text)))
  jsOrNum (if combined = "" then none else findTotalInText combined)
    (if allDocsRaw = "" then none else findTotalInText allDocsRaw)

/-- A parsed oracle response for one contractor (after the defensive JSON
parsing): the filtered `items`, the `total` when numeric, and the `unmapped`
array. -/
structure OracleResp where
  items : List RawItem := []
  total : Option ℚ := none
  unmapped : List UnmappedItem := []
deriving DecidableEq, Repr

/-- The outcome of scoring one contractor. -/
structure ScoreResult where
  items : List PerItem
  total : Option ℚ
  unmappedOut : List UnmappedItem
  lenientRetry : Bool
deriving DecidableEq, Repr

/-- Score one contractor (worker lines 549-1035): harvest the evidence,
reconcile the strict-pass oracle response, and — only when both the kept
items and the collapsed items are empty — make the lenient retry call
(`resp2`; `none` models a thrown retry call, which is swallowed) and
reconcile its response instead; the recorded total is the final parsed
total when numeric, else the evidence-detected total; the unmapped output is
the final response's `unmapped` array followed by the strict-pass drops. -/
def scoreContractor (idx : List (String × String)) (cands : List String)
    (texts : List DocText) (resp1 : OracleResp) (resp2 : Option OracleResp) :
    Except String ScoreResult := do
  let h := harvestDocs texts
  let (items1, kept1, dropped1) ← reconcile idx cands resp1.items h.alternates
  let detected := detectedTotalOf texts
  let retryCond := kept1.isEmpty && items1.isEmpty
  let (itemsF, totalF, unmF) ←
    if retryCond then
      match resp2 with
      | some r2 => do
        let (items2, _kept2, _dropped2) ← reconcileRetry idx cands r2.items
        pure (items2, r2.total, r2.unmapped)
      | none => pure (items1, resp1.total, resp1.unmapped)
    else pure (items1, resp1.total, resp1.unmapped)
  let perTotal := match totalF with
    | some t => some t
    | none => detected
  return ⟨itemsF, perTotal, unmF ++ dropped1, retryCond⟩

/-! ## Report merge (worker lines 1038-1095) -/

/-- A bid row as far as the merge is concerned. -/
structure BidRow where
  bid_id : String
  contractor_id : Option String := none
deriving DecidableEq, Repr

/-- `b.contractor_id || 'unassigned'`. -/
def cidOf (b : BidRow) : String :=
  match b.contractor_id with
  | some c => if c = "" then "unassigned" else c
  | none => "unassigned"

/-- A matrix cell. -/
structure Cell where
  status : String
  price : Option ℚ := none
deriving DecidableEq, Repr

/-- The final leveling report (the fields the claims are about; the
qualification aggregation of worker lines 1054-1066 is a per-field
passthrough no claim concerns and is not modelled). -/
structure Report where
  contractors : List (String × Option ℚ)
  scope_items : List String
  matrix : List (String × List (String × Cell))
  unmapped : List (String × List UnmappedItem)
deriving DecidableEq, Repr

/-- Sum of prices over included items (worker line 1074). -/
def sumIncluded (items : List PerItem) : ℚ :=
  items.foldl (fun acc it =>
    acc + (if it.status = "included" then
      match it.price with
      | some p => p
      | none => 0
    else 0)) 0

/-- A contractor's reported total (worker lines 1068-1077): the per-record
total when numeric, else the sum of included prices when positive, else
null. -/
def contractorTotal (r : Option ScoreResult) : Option ℚ :=
  let items := match r with
    | some s => s.items
    | none => []
  match (match r with
    | some s => s.total
    | none => none) with
  | some t => some t
  | none =>
    let sum := sumIncluded items
    if 0 < sum then some sum else none

/-- The matrix cell for one scope row and contractor (worker lines
1048-1051): the first of the contractor's items whose normalized name equals
the row, defaulting to `not_specified` (the `found?.status ||
'not_specified'` coercion also maps an empty status there). -/
def cellFor (per : List (String × ScoreResult)) (s : String) (cid : String) : Cell :=
  let arr := match alistGet per cid with
    | some r => r.items
    | none => []
  match arr.find? (fun it => normalizeScope it.name = s) with
  | some it => ⟨if it.status = "" then "not_specified" else it.status, it.price⟩
  | none => ⟨"not_specified", none⟩

/-- The merge pass (worker lines 1038-1095). -/
def mergeReport (cands : List String) (bids : List BidRow)
    (per : List (String × ScoreResult)) (unm : List (String × List UnmappedItem)) :
    Report :=
  let scopeItems := dedupFirst (cands ++ joinMap (fun p =>
    ((p.2.items.map (fun it => normalizeScope it.name)).filter (fun n => n ≠ ""))) per)
  let cids := dedupFirst (bids.map cidOf)
  let matrix := scopeItems.map (fun s =>
    (s, bids.foldl (fun row b => alistSet row (cidOf b) (cellFor per s (cidOf b))) []))
  let contractors := cids.map (fun cid => (cid, contractorTotal (alistGet per cid)))
  ⟨contractors, scopeItems, matrix, unm⟩

/-- The input of one contractor's scoring pass. -/
structure ContractorInput where
  bid : BidRow
  texts : List DocText := []
  resp1 : OracleResp := {}
  resp2 : Option OracleResp := none

/-- The sequential per-contractor scoring loop (worker lines 549-1036):
build up the `per` and `unmappedPer` maps keyed by contractor id, aborting
the run at the first scoring error. -/
def scoreFold (cands : List String) :
    List ContractorInput →
    List (String × ScoreResult) × List (String × List UnmappedItem) →
    Except String (List (String × ScoreResult) × List (String × List UnmappedItem))
  | [], acc => .ok acc
  | cd :: rest, acc =>
    match scoreContractor d23Index cands cd.texts cd.resp1 cd.resp2 with
    | .error e => .error e
    | .ok r =>
      scoreFold cands rest
        (alistSet acc.1 (cidOf cd.bid) r, alistSet acc.2 (cidOf cd.bid) r.unmappedOut)

/-- The whole post-extraction pipeline for one division run: score each
contractor sequentially against the shared candidate list (with the fixed
Division-23 synonym index the worker builds at startup) and merge the
results into the final report. -/
def runPipeline (cands : List String) (inputs : List ContractorInput) :
    Except String Report :=
  match scoreFold cands inputs ([], []) with
  | .error e => .error e
  | .ok pu => .ok (mergeReport cands (inputs.map (fun cd => cd.bid)) pu.1 pu.2)

/-! ## Oracle retry loop (`callClaudeWithRetry`, worker lines 779-804) -/

/-- One oracle call outcome: a response, or a thrown error message. -/
inductive CallOutcome where
  | ok (resp : String)
  | err (msg : String)
deriving DecidableEq, Repr

/-- `/429|rate_limit/i.test(msg)`. -/
def isRateLimitMsg (m : String) : Bool :=
  let l := lowerS m
  mSearch (mLit "429") l || mSearch (mLit "rate_limit") l

/-- The backoff delay before retry number `attempt + 1`:
`Math.min(15000, 3000 * Math.pow(2, attempt))` milliseconds (the random
jitter of up to 500 ms is added separately). -/
def backoffDelay (attempt : Nat) : Nat := min 15000 (3000 * 2 ^ attempt)

deriving instance DecidableEq for Except

/-- The observable trace of the retry loop: the result, the number of oracle
calls made, and the delays slept between calls. -/
structure RetryTrace where
  result : Except String String
  calls : Nat
  delays : List Nat
deriving DecidableEq, Repr

/-- The `while (attempt < tries)` loop of `callClaudeWithRetry`, with
`oracle n` the outcome of the `n`-th call and `jitter n` the sampled value
of `Math.floor(Math.random() * 500)` before the `n`-th retry: a rate-limit
error with `attempt < tries - 1` sleeps and retries, any other error is
rethrown immediately, and falling out of the loop raises the final error.
The recursion is on `fuel = tries - attempt` (so `attempt < tries` is
`0 < fuel` and `attempt < tries - 1` is `1 ≤ fuel`, for every `tries`). -/
def callAux (jitter : Nat → Nat) (oracle : Nat → CallOutcome) :
    Nat → Nat → RetryTrace
  | 0, attempt => ⟨.error "Claude request failed after retries", attempt, []⟩
  | fuel + 1, attempt =>
    match oracle attempt with
    | .ok r => ⟨.ok r, attempt + 1, []⟩
    | .err m =>
      if isRateLimitMsg m ∧ 1 ≤ fuel then
        let t := callAux jitter oracle fuel (attempt + 1)
        ⟨t.result, t.calls, (backoffDelay attempt + jitter attempt) :: t.delays⟩
      else ⟨.error m, attempt + 1, []⟩

/-- `callClaudeWithRetry(tries = 4)`. -/
def callClaudeWithRetry (jitter : Nat → Nat) (oracle : Nat → CallOutcome)
    (tries : Nat := 4) : RetryTrace :=
  callAux jitter oracle tries 0

/-- The job outcome of one scoring call (worker lines 798-804): an error
escaping the retry loop marks the whole processing job `failed` with that
message. -/
inductive JobOutcome where
  | continueJob (resp : String)
  | jobFailed (error : String)
deriving DecidableEq, Repr

/-- See `JobOutcome`. -/
def scoringCallOutcome (jitter : Nat → Nat) (oracle : Nat → CallOutcome) : JobOutcome :=
  match (callClaudeWithRetry jitter oracle).result with
  | .ok r => .continueJob r
  | .error e => .jobFailed e

/-! ## Pre-oracle worker control flow (worker lines 29-452) -/

/-- What the worker does between dequeuing a job and the first oracle call
(the candidate-aggregation call of line 452), as a function of the bid rows
found for the division, the extracted text fragments of each bid's
documents, and whether the oracle credential is configured:
no bids fails the job (line 61: `'No bids found'`), a missing credential
fails it (line 143), and otherwise the worker proceeds to the aggregation
oracle call — there is no check anywhere on this path that any document or
any extractable text exists. -/
inductive WorkerDecision where
  | jobFailed (error : String)
  | oracleAggregationCall (totalExtractedFragments : Nat)
deriving DecidableEq, Repr

/-- See `WorkerDecision`. -/
def workerPreOracle (bids : List BidRow) (docTexts : List (String × List DocText))
    (anthropicKeySet : Bool) : WorkerDecision :=
  if bids.isEmpty then .jobFailed "No bids found"
  else if !anthropicKeySet then .jobFailed "Missing ANTHROPIC_API_KEY"
  else .oracleAggregationCall ((bids.map (fun b =>
    (match alistGet docTexts b.bid_id with
     | some ts => ts
     | none => []).length)).sum)

/-! ## Derived notions used by the verification -/

/-- A status string with a defined precedence. -/
def precDefined (s : String) : Bool := (precOf s).isSome

/-- The three documented status values. -/
def statusStrings : List String := ["included", "excluded", "not_specified"]

/-- The status strings present in a parsed oracle response. -/
def respRawStatuses (resp : OracleResp) : List String :=
  resp.items.filterMap (fun it => it.status)

/-- The status strings of the second (retry) response, when one exists. -/
def respStatusesOf (resp2 : Option OracleResp) : List String :=
  match resp2 with
  | some r2 => respRawStatuses r2
  | none => []

/-- All status strings appearing in any oracle response of a run's inputs. -/
def inputStatuses (inputs : List ContractorInput) : List String :=
  joinMap (fun cd => respRawStatuses cd.resp1 ++ respStatusesOf cd.resp2) inputs

/-- The total recorded in the per-contractor record (worker line 1028). -/
def perTotalOf (parsedTotal : Option ℚ) (detected : Option ℚ) : Option ℚ :=
  match parsedTotal with
  | some t => some t
  | none => detected

/-- The parsed oracle total that actually reaches the per-contractor record:
the retry response total when the lenient retry ran and returned, otherwise
the strict-pass total. -/
def oracleTotalUsed (resp1 : OracleResp) (resp2 : Option OracleResp)
    (retried : Bool) : Option ℚ :=
  if retried then
    match resp2 with
    | some r2 => r2.total
    | none => resp1.total
  else resp1.total

/-- The total rule in the words of the specification (claim C7, amended):
the explicit oracle total when numeric, else the evidence-detected total,
else the positive sum of included prices, else null. -/
def totalRuleSpec (oracleTotal detected : Option ℚ) (items : List PerItem) :
    Option ℚ :=
  match oracleTotal with
  | some t => some t
  | none =>
    match detected with
    | some d => some d
    | none =>
      let sum := sumIncluded items
      if 0 < sum then some sum else none

/-! ## Concrete runs referenced in the claim checks -/

/-- A one-contractor run: the oracle marks the single candidate included at
price 300. -/
def c1wInputs : List ContractorInput :=
  [⟨⟨"b1", some "c1"⟩, [],
    ⟨[⟨none, some "Ductwork", some "included", some 300, none⟩], none, []⟩, none⟩]

/-- The report `runPipeline ["Ductwork"] c1wInputs` produces. -/
def c1wReport : Report :=
  ⟨[("c1", some 300)], ["Ductwork"],
   [("Ductwork", [("c1", ⟨"included", some 300⟩)])], [("c1", [])]⟩

/-- A 130-character candidate name: its normalization exceeds 120 characters,
so `normalizeScope` truncates it and re-normalizing the truncation is not
idempotent (the trailing space changes it again). -/
def c1cxCand : String := "Zga " ++ String.join (List.replicate 31 "zga ") ++ "zz"

/-- A run whose oracle item fuzzy-matches the long candidate and carries the
undocumented status string `maybe`. -/
def c1cxInputs : List ContractorInput :=
  [⟨⟨"b1", some "c1"⟩, [],
    ⟨[⟨none, some "zga", some "maybe", none, none⟩], none, []⟩, none⟩]

/-- One document whose text carries an explicit `TOTAL BID: $5,000` line. -/
def c7wTexts : List DocText := [⟨"doc.pdf", "TOTAL BID: $5,000\nDuctwork you bet"⟩]

/-- An oracle response with one included item at 300 and no numeric total. -/
def c7wResp : OracleResp :=
  ⟨[⟨none, some "Ductwork", some "included", some 300, none⟩], none, []⟩

/-- The score record `scoreContractor d23Index ["Ductwork"] c7wTexts c7wResp
none` produces. -/
def c7wResult : ScoreResult := ⟨[⟨"Ductwork", "included", some 300⟩], some 5000, [], false⟩

/-- The run of `c7wTexts`/`c7wResp` as a full pipeline input. -/
def c7cxInputs : List ContractorInput := [⟨⟨"b1", some "c1"⟩, c7wTexts, c7wResp, none⟩]

/-- An oracle that answers three rate-limit errors and then succeeds. -/
def c8oracle429 (n : Nat) : CallOutcome :=
  if n < 3 then .err "429 rate_limit_error: too many requests" else .ok "resp"

/-! ## Lemmas: association lists -/

theorem alistGet_set_self (m : List (String × α)) (k : String) (v : α) :
    alistGet (alistSet m k v) k = some v := by
  induction m with
  | nil => simp [alistSet, alistGet]
  | cons p rest ih =>
    obtain ⟨k₀, v₀⟩ := p
    by_cases h : k₀ = k <;> simp [alistSet, alistGet, h, ih]

theorem alistGet_set_ne (m : List (String × α)) (k k' : String) (v : α)
    (h : k' ≠ k) : alistGet (alistSet m k v) k' = alistGet m k' := by
  have h' : ¬ k = k' := fun hh => h hh.symm
  induction m with
  | nil => simp [alistSet, alistGet, h']
  | cons p rest ih =>
    obtain ⟨k₀, v₀⟩ := p
    by_cases h₀ : k₀ = k
    · subst h₀
      simp [alistSet, alistGet, h']
    · simp [alistSet, alistGet, h₀, ih]

theorem alistSet_keys (m : List (String × α)) (k : String) (v : α) :
    (alistSet m k v).map Prod.fst =
      if k ∈ m.map Prod.fst then m.map Prod.fst else m.map Prod.fst ++ [k] := by
  induction m with
  | nil => simp [alistSet]
  | cons p rest ih =>
    obtain ⟨k₀, v₀⟩ := p
    by_cases h : k₀ = k
    · subst h
      simp [alistSet]
    · have h' : ¬ k = k₀ := fun hh => h hh.symm
      by_cases h₁ : k ∈ rest.map Prod.fst <;>
        simp [alistSet, h, ih, h₁, h']

theorem alistGet_eq_none_iff (m : List (String × α)) (k : String) :
    alistGet m k = none ↔ k ∉ m.map Prod.fst := by
  induction m with
  | nil => simp [alistGet]
  | cons p rest ih =>
    obtain ⟨k₀, v₀⟩ := p
    by_cases h : k₀ = k
    · subst h
      simp [alistGet]
    · have h' : ¬ k₀ = k := h
      have h'' : ¬ k = k₀ := fun hh => h (hh.symm)
      simp [alistGet, h', h'', ih]

theorem alistGet_isSome_of_mem (m : List (String × α)) (k : String)
    (h : k ∈ m.map Prod.fst) : (alistGet m k).isSome := by
  cases hg : alistGet m k with
  | none => exact absurd ((alistGet_eq_none_iff m k).mp hg) (by simp [h])
  | some v => simp

theorem mem_alistSet (m : List (String × α)) (k : String) (v : α) (p : String × α)
    (h : p ∈ alistSet m k v) : p ∈ m ∨ p = (k, v) := by
  induction m with
  | nil => simpa [alistSet] using h
  | cons q rest ih =>
    obtain ⟨k₀, v₀⟩ := q
    by_cases h₀ : k₀ = k
    · subst h₀
      rcases (by simpa [alistSet] using h : p = (k₀, v) ∨ p ∈ rest) with h₁ | h₁
      · exact Or.inr h₁
      · exact Or.inl (List.mem_cons_of_mem _ h₁)
    · rcases (by simpa [alistSet, h₀] using h : p = (k₀, v₀) ∨ p ∈ alistSet rest k v) with h₁ | h₁
      · exact Or.inl (by simp [h₁])
      · rcases ih h₁ with h₂ | h₂
        · exact Or.inl (List.mem_cons_of_mem _ h₂)
        · exact Or.inr h₂

theorem alistGet_mem (m : List (String × α)) (k : String) (e : α)
    (h : alistGet m k = some e) : (k, e) ∈ m := by
  induction m with
  | nil => simp [alistGet] at h
  | cons p rest ih =>
    obtain ⟨k₀, v₀⟩ := p
    by_cases h₀ : k₀ = k
    · subst h₀
      simp [alistGet] at h
      simp [h]
    · simp [alistGet, h₀] at h
      exact List.mem_cons_of_mem _ (ih h)

theorem alistSet_append_fresh (m : List (String × α)) (k : String) (v : α)
    (h : k ∉ m.map Prod.fst) : alistSet m k v = m ++ [(k, v)] := by
  induction m with
  | nil => simp [alistSet]
  | cons p rest ih =>
    obtain ⟨k₀, v₀⟩ := p
    have h₁ : ¬ k₀ = k := by
      intro hh
      exact h (by simp [hh])
    have h₂ : k ∉ rest.map Prod.fst := by
      intro hh
      exact h (by simp [hh])
    simp [alistSet, h₁, ih h₂]

/-! ## Lemmas: first-occurrence de-duplication -/

theorem dedupFirst_nodup_aux (l : List String) :
    ∀ acc : List String, acc.Nodup →
      (l.foldl (fun a s => if s ∈ a then a else a ++ [s]) acc).Nodup := by
  induction l with
  | nil => intro acc h; simpa [dedupFirst] using h
  | cons s rest ih =>
    intro acc h
    simp only [List.foldl_cons]
    by_cases hs : s ∈ acc
    · simpa [hs] using ih acc h
    · have h₂ : (acc ++ [s]).Nodup := by
        simp [List.nodup_append, h, hs]
      simpa [hs] using ih (acc ++ [s]) h₂

theorem dedupFirst_nodup (l : List String) : (dedupFirst l).Nodup :=
  dedupFirst_nodup_aux l [] (by simp)

/-! ## Lemmas: `mapME` -/

theorem mapME_mem (f : α → Except ε β) (l : List α) (bs : List β)
    (h : mapME f l = .ok bs) : ∀ b ∈ bs, ∃ a ∈ l, f a = .ok b := by
  induction l generalizing bs with
  | nil =>
    simp [mapME] at h
    subst h
    simp
  | cons a as ih =>
    simp only [mapME] at h
    cases hfa : f a with
    | error e => simp [hfa] at h
    | ok b₀ =>
      simp only [hfa] at h
      cases hrest : mapME f as with
      | error e => simp [hrest] at h
      | ok bs₀ =>
        simp only [hrest] at h
        obtain rfl : bs = b₀ :: bs₀ := by
          injection h with h'
          exact h'.symm
        intro b hb
        rcases List.mem_cons.mp hb with hb' | hb'
        · exact ⟨a, by simp, by simpa [hb'] using hfa⟩
        · rcases ih bs₀ hrest b hb' with ⟨a₀, ha₀, hfa₀⟩
          exact ⟨a₀, List.mem_cons_of_mem _ ha₀, hfa₀⟩

/-! ## Lemmas: the collapse fold -/

theorem collapseStep_get_ne (m : List (String × PerItem)) (it : PerItem) (k : String)
    (h : normalizeScope it.name ≠ k) :
    alistGet (collapseStep m it) k = alistGet m k := by
  have h' : k ≠ normalizeScope it.name := fun hh => h hh.symm
  simp only [collapseStep]
  by_cases h0 : normalizeScope it.name = ""
  · simp [h0]
  · simp only [if_neg h0]
    cases hg : alistGet m (normalizeScope it.name) with
    | none => simp [alistGet_set_ne _ _ _ _ h']
    | some prev =>
      dsimp only
      by_cases hgt : precGT it.status prev.status
      · rw [if_pos hgt]
        simp [alistGet_set_ne _ _ _ _ h']
      · rw [if_neg hgt]
        cases hpp : prev.price with
        | none =>
          cases hip : it.price with
          | none => simp
          | some pr => simp [alistGet_set_ne _ _ _ _ h']
        | some v => simp

theorem foldCollapse_get_ne (kept : List PerItem) (m : List (String × PerItem))
    (k : String) (h : ∀ it ∈ kept, normalizeScope it.name ≠ k) :
    alistGet (kept.foldl collapseStep m) k = alistGet m k := by
  induction kept generalizing m with
  | nil => rfl
  | cons it rest ih =>
    simp only [List.foldl_cons]
    rw [ih _ (fun x hx => h x (List.mem_cons_of_mem _ hx)),
      collapseStep_get_ne _ _ _ (h it (by simp))]

theorem collapseStep_status (S : List String) (m : List (String × PerItem))
    (it : PerItem) (hm : ∀ p ∈ m, p.2.status ∈ S) (hit : it.status ∈ S) :
    ∀ p ∈ collapseStep m it, p.2.status ∈ S := by
  intro p hp
  simp only [collapseStep] at hp
  by_cases h0 : normalizeScope it.name = ""
  · exact hm p (by simpa [h0] using hp)
  · simp only [if_neg h0] at hp
    cases hg : alistGet m (normalizeScope it.name) with
    | none =>
      simp only [hg] at hp
      rcases mem_alistSet _ _ _ _ hp with h1 | h1
      · exact hm p h1
      · rw [h1]
        exact hit
    | some prev =>
      have hprev : prev.status ∈ S :=
        hm (normalizeScope it.name, prev) (alistGet_mem _ _ _ hg)
      simp only [hg] at hp
      by_cases hgt : precGT it.status prev.status
      · rw [if_pos hgt] at hp
        rcases mem_alistSet _ _ _ _ hp with h1 | h1
        · exact hm p h1
        · rw [h1]
          exact hit
      · rw [if_neg hgt] at hp
        cases hpp : prev.price with
        | none =>
          cases hip : it.price with
          | none =>
            simp only [hpp, hip] at hp
            exact hm p hp
          | some pr =>
            simp only [hpp, hip] at hp
            rcases mem_alistSet _ _ _ _ hp with h1 | h1
            · exact hm p h1
            · rw [h1]
              exact hprev
        | some v =>
          simp only [hpp] at hp
          exact hm p hp

theorem foldCollapse_status (S : List String) (kept : List PerItem)
    (m : List (String × PerItem)) (hm : ∀ p ∈ m, p.2.status ∈ S)
    (hk : ∀ it ∈ kept, it.status ∈ S) :
    ∀ p ∈ kept.foldl collapseStep m, p.2.status ∈ S := by
  induction kept generalizing m with
  | nil => exact hm
  | cons it rest ih =>
    simp only [List.foldl_cons]
    exact ih _ (collapseStep_status S m it hm (hk it (by simp)))
      (fun x hx => hk x (List.mem_cons_of_mem _ hx))

theorem prefill_status (cands : List String) :
    ∀ p ∈ prefill cands, p.2.status = "not_specified" ∧ p.2.price = none := by
  have main : ∀ (l : List String) (m : List (String × PerItem)),
      (∀ p ∈ m, p.2.status = "not_specified" ∧ p.2.price = none) →
      ∀ p ∈ l.foldl (fun m name =>
        alistSet m (normalizeScope name) ⟨name, "not_specified", none⟩) m,
        p.2.status = "not_specified" ∧ p.2.price = none := by
    intro l
    induction l with
    | nil => intro m hm; exact hm
    | cons c rest ih =>
      intro m hm
      simp only [List.foldl_cons]
      refine ih _ (fun p hp => ?_)
      rcases mem_alistSet _ _ _ _ hp with h1 | h1
      · exact hm p h1
      · rw [h1]
        exact ⟨rfl, rfl⟩
  exact main cands [] (by simp)

theorem collapseStep_keep (m : List (String × PerItem)) (it : PerItem) (k : String)
    (e₀ : PerItem) (hget : alistGet m k = some e₀) (v : ℚ) (hv : e₀.price = some v)
    (hng : normalizeScope it.name = k → precGT it.status e₀.status = false) :
    alistGet (collapseStep m it) k = some e₀ := by
  by_cases hk : normalizeScope it.name = k
  · simp only [collapseStep]
    by_cases h0 : normalizeScope it.name = ""
    · simp [h0, hget]
    · have h0' : ¬ k = "" := by
        rw [← hk]
        exact h0
      simp only [if_neg h0, hk, hget, h0']
      have hfalse : ¬ precGT it.status e₀.status = true := by
        simp [hng hk]
      rw [if_neg hfalse]
      cases hip : it.price with
      | none => simp [h0', hv, hget]
      | some pr => simp [h0', hv, hget]
  · rw [collapseStep_get_ne m it k hk]
    exact hget

theorem foldCollapse_keep (kept : List PerItem) (m : List (String × PerItem))
    (k : String) (e₀ : PerItem) (v : ℚ)
    (hget : alistGet m k = some e₀) (hv : e₀.price = some v)
    (hng : ∀ it ∈ kept, normalizeScope it.name = k → precGT it.status e₀.status = false) :
    alistGet (kept.foldl collapseStep m) k = some e₀ := by
  induction kept generalizing m with
  | nil => exact hget
  | cons it rest ih =>
    simp only [List.foldl_cons]
    exact ih _ (collapseStep_keep m it k e₀ hget v hv (hng it (by simp)))
      (fun x hx => hng x (List.mem_cons_of_mem _ hx))

theorem precGT_ns_ns : precGT "not_specified" "not_specified" = false := by decide

theorem collapseStep_notspec (m : List (String × PerItem)) (it : PerItem) (k : String)
    (e₀ : PerItem) (hget : alistGet m k = some e₀) (hs : e₀.status = "not_specified")
    (hit : normalizeScope it.name = k → it.status = "not_specified") :
    ∃ e, alistGet (collapseStep m it) k = some e ∧ e.status = "not_specified" := by
  by_cases hk : normalizeScope it.name = k
  · simp only [collapseStep]
    by_cases h0 : normalizeScope it.name = ""
    · exact ⟨e₀, by simp [h0, hget], hs⟩
    · have h0' : ¬ k = "" := by
        rw [← hk]
        exact h0
      simp only [if_neg h0, hk, hget, h0']
      have hfalse : ¬ precGT it.status e₀.status = true := by
        rw [hit hk, hs]
        simp [precGT_ns_ns]
      rw [if_neg hfalse]
      cases hpp : e₀.price with
      | none =>
        cases hip : it.price with
        | none => exact ⟨e₀, by simp [h0', hget], hs⟩
        | some pr =>
          exact ⟨{ e₀ with price := some pr }, by simp [h0', alistGet_set_self], hs⟩
      | some v => exact ⟨e₀, by simp [h0', hget], hs⟩
  · rw [collapseStep_get_ne m it k hk]
    exact ⟨e₀, hget, hs⟩

theorem foldCollapse_notspec (kept : List PerItem) (m : List (String × PerItem))
    (k : String) (e₀ : PerItem)
    (hget : alistGet m k = some e₀) (hs : e₀.status = "not_specified")
    (hit : ∀ it ∈ kept, normalizeScope it.name = k → it.status = "not_specified") :
    ∃ e, alistGet (kept.foldl collapseStep m) k = some e ∧ e.status = "not_specified" := by
  induction kept generalizing m e₀ with
  | nil => exact ⟨e₀, hget, hs⟩
  | cons it rest ih =>
    simp only [List.foldl_cons]
    rcases collapseStep_notspec m it k e₀ hget hs (hit it (by simp)) with ⟨e₁, hget₁, hs₁⟩
    exact ih _ e₁ hget₁ hs₁ (fun x hx => hit x (List.mem_cons_of_mem _ hx))

theorem precOf_le (s : String) (x : Nat) (h : precOf s = some x) : x ≤ 3 := by
  simp only [precOf] at h
  split_ifs at h <;> simp_all <;> omega

theorem precGT_included_false (s : String) : precGT s "included" = false := by
  have h3 : precOf "included" = some 3 := rfl
  simp only [precGT, h3]
  cases h : precOf s with
  | none => rfl
  | some x => exact decide_eq_false (Nat.not_lt.mpr (precOf_le s x h))

theorem precOf_three (s : String) (h : precOf s = some 3) : s = "included" := by
  simp only [precOf] at h
  split_ifs at h with h1 h2 h3 <;> simp_all

theorem collapseStep_included (m : List (String × PerItem)) (it : PerItem) (k : String)
    (e₀ : PerItem) (hget : alistGet m k = some e₀) (hs : e₀.status = "included") :
    ∃ e, alistGet (collapseStep m it) k = some e ∧ e.status = "included" := by
  by_cases hk : normalizeScope it.name = k
  · simp only [collapseStep]
    by_cases h0 : normalizeScope it.name = ""
    · exact ⟨e₀, by simp [h0, hget], hs⟩
    · have h0' : ¬ k = "" := by
        rw [← hk]
        exact h0
      simp only [if_neg h0, hk, hget, h0']
      have hfalse : ¬ precGT it.status e₀.status = true := by
        rw [hs]
        simp [precGT_included_false]
      rw [if_neg hfalse]
      cases hpp : e₀.price with
      | none =>
        cases hip : it.price with
        | none => exact ⟨e₀, by simp [h0', hget], hs⟩
        | some pr =>
          exact ⟨{ e₀ with price := some pr }, by simp [h0', alistGet_set_self], hs⟩
      | some v => exact ⟨e₀, by simp [h0', hget], hs⟩
  · rw [collapseStep_get_ne m it k hk]
    exact ⟨e₀, hget, hs⟩

theorem foldCollapse_included (kept : List PerItem) (m : List (String × PerItem))
    (k : String) (e₀ : PerItem)
    (hget : alistGet m k = some e₀) (hs : e₀.status = "included") :
    ∃ e, alistGet (kept.foldl collapseStep m) k = some e ∧ e.status = "included" := by
  induction kept generalizing m e₀ with
  | nil => exact ⟨e₀, hget, hs⟩
  | cons it rest ih =>
    simp only [List.foldl_cons]
    rcases collapseStep_included m it k e₀ hget hs with ⟨e₁, hget₁, hs₁⟩
    exact ih _ e₁ hget₁ hs₁

theorem collapseStep_precDefined (m : List (String × PerItem)) (it : PerItem)
    (k : String) (hm : ∀ e, alistGet m k = some e → precDefined e.status)
    (hit : normalizeScope it.name = k → precDefined it.status) :
    ∀ e, alistGet (collapseStep m it) k = some e → precDefined e.status := by
  intro e he
  by_cases hk : normalizeScope it.name = k
  · simp only [collapseStep] at he
    by_cases h0 : normalizeScope it.name = ""
    · exact hm e (by simpa [h0] using he)
    · have h0' : ¬ k = "" := by
        rw [← hk]
        exact h0
      rw [hk] at he
      rw [if_neg h0'] at he
      cases hg : alistGet m k with
      | none =>
        simp only [hg] at he
        rw [alistGet_set_self] at he
        cases he
        exact hit hk
      | some prev =>
        simp only [hg] at he
        by_cases hgt : precGT it.status prev.status
        · rw [if_pos hgt] at he
          rw [alistGet_set_self] at he
          cases he
          exact hit hk
        · rw [if_neg hgt] at he
          cases hpp : prev.price with
          | none =>
            cases hip : it.price with
            | none =>
              simp only [hpp, hip] at he
              exact hm e he
            | some pr =>
              simp only [hpp, hip] at he
              rw [alistGet_set_self] at he
              cases he
              exact hm prev hg
          | some v =>
            simp only [hpp] at he
            exact hm e he
  · rw [collapseStep_get_ne m it k hk] at he
    exact hm e he

theorem collapse_install_included (kept : List PerItem) (m : List (String × PerItem))
    (k : String) (hk0 : k ≠ "")
    (hm : ∀ e, alistGet m k = some e → precDefined e.status)
    (hkept : ∀ it ∈ kept, normalizeScope it.name = k → precDefined it.status)
    (hex : ∃ it ∈ kept, normalizeScope it.name = k ∧ it.status = "included") :
    ∃ e, alistGet (kept.foldl collapseStep m) k = some e ∧ e.status = "included" := by
  induction kept generalizing m with
  | nil => simp at hex
  | cons it rest ih =>
    simp only [List.foldl_cons]
    by_cases hit : normalizeScope it.name = k ∧ it.status = "included"
    · have hstep : ∃ e, alistGet (collapseStep m it) k = some e ∧ e.status = "included" := by
        simp only [collapseStep]
        have h0 : ¬ normalizeScope it.name = "" := by
          rw [hit.1]
          exact hk0
        have hk0' : ¬ k = "" := hk0
        simp only [if_neg h0, hit.1, hk0']
        cases hg : alistGet m k with
        | none =>
          exact ⟨it, by simp [hk0', alistGet_set_self], hit.2⟩
        | some prev =>
          dsimp only
          by_cases hgt : precGT it.status prev.status
          · rw [if_pos hgt]
            exact ⟨it, by simp [hk0', alistGet_set_self], hit.2⟩
          · have hpd := hm prev hg
            have hprev : prev.status = "included" := by
              rcases hx : precOf prev.status with _ | x
              · simp [precDefined, hx] at hpd
              · have hx3 : x = 3 := by
                  by_contra hne
                  have hlt : x < 3 := Nat.lt_of_le_of_ne (precOf_le _ _ hx) hne
                  have : precGT it.status prev.status = true := by
                    have h3 : precOf "included" = some 3 := rfl
                    simp only [precGT, hit.2, h3, hx]
                    simpa using hlt
                  simp [this] at hgt
                exact precOf_three _ (by rw [hx, hx3])
            rw [if_neg hgt]
            cases hpp : prev.price with
            | none =>
              cases hip : it.price with
              | none => exact ⟨prev, by simp [hk0', hg], hprev⟩
              | some pr =>
                exact ⟨{ prev with price := some pr },
                  by simp [hk0', alistGet_set_self], hprev⟩
            | some v => exact ⟨prev, by simp [hk0', hg], hprev⟩
      rcases hstep with ⟨e₁, hget₁, hs₁⟩
      exact foldCollapse_included rest _ k e₁ hget₁ hs₁
    · rcases hex with ⟨it', hmem, hk', hs'⟩
      rcases List.mem_cons.mp hmem with rfl | hmem'
      · exact absurd ⟨hk', hs'⟩ hit
      · exact ih (collapseStep m it)
          (collapseStep_precDefined m it k hm (fun hh => hkept it (by simp) hh))
          (fun x hx => hkept x (List.mem_cons_of_mem _ hx))
          ⟨it', hmem', hk', hs'⟩

theorem collapseStep_keys (m : List (String × PerItem)) (it : PerItem)
    (h : normalizeScope it.name ∈ m.map Prod.fst ∨ normalizeScope it.name = "") :
    (collapseStep m it).map Prod.fst = m.map Prod.fst := by
  simp only [collapseStep]
  by_cases h0 : normalizeScope it.name = ""
  · simp [h0]
  · simp only [if_neg h0]
    have hmem : normalizeScope it.name ∈ m.map Prod.fst := by
      rcases h with h | h
      · exact h
      · exact absurd h h0
    cases hg : alistGet m (normalizeScope it.name) with
    | none =>
      exact absurd ((alistGet_eq_none_iff _ _).mp hg) (by simp [hmem])
    | some prev =>
      dsimp only
      by_cases hgt : precGT it.status prev.status
      · rw [if_pos hgt, alistSet_keys]
        simp [hmem]
      · rw [if_neg hgt]
        cases hpp : prev.price with
        | none =>
          cases hip : it.price with
          | none => simp
          | some pr =>
            rw [alistSet_keys]
            simp [hmem]
        | some v => simp

theorem foldCollapse_keys (kept : List PerItem) (m : List (String × PerItem))
    (h : ∀ it ∈ kept,
      normalizeScope it.name ∈ m.map Prod.fst ∨ normalizeScope it.name = "") :
    (kept.foldl collapseStep m).map Prod.fst = m.map Prod.fst := by
  induction kept generalizing m with
  | nil => rfl
  | cons it rest ih =>
    simp only [List.foldl_cons]
    have hstep := collapseStep_keys m it (h it (by simp))
    rw [ih (collapseStep m it) (fun x hx => by
      rw [hstep]
      exact h x (List.mem_cons_of_mem _ hx)), hstep]

/-! ## Lemmas: key-valued folds (`prefill`, matrix rows) -/

theorem foldSet_keys (f : α → String) (g : α → β) (l : List α)
    (m : List (String × β)) :
    ((l.foldl (fun r x => alistSet r (f x) (g x)) m).map Prod.fst)
      = l.foldl (fun a x => if f x ∈ a then a else a ++ [f x]) (m.map Prod.fst) := by
  induction l generalizing m with
  | nil => rfl
  | cons x rest ih =>
    simp only [List.foldl_cons]
    rw [ih, alistSet_keys]

theorem foldSet_values (f : α → String) (g : α → β) (l : List α)
    (m : List (String × β)) (hm : ∀ p ∈ m, ∃ x, p = (f x, g x)) :
    ∀ p ∈ l.foldl (fun r x => alistSet r (f x) (g x)) m, ∃ x, p = (f x, g x) := by
  induction l generalizing m with
  | nil => exact hm
  | cons x rest ih =>
    simp only [List.foldl_cons]
    refine ih _ (fun p hp => ?_)
    rcases mem_alistSet _ _ _ _ hp with h1 | h1
    · exact hm p h1
    · exact ⟨x, h1⟩

theorem mem_dedupFirst_aux (l acc : List String) (y : String) :
    y ∈ l.foldl (fun a s => if s ∈ a then a else a ++ [s]) acc ↔ y ∈ acc ∨ y ∈ l := by
  induction l generalizing acc with
  | nil => simp
  | cons s rest ih =>
    simp only [List.foldl_cons]
    by_cases hs : s ∈ acc
    · rw [if_pos hs, ih]
      constructor
      · rintro (h | h)
        · exact Or.inl h
        · exact Or.inr (List.mem_cons_of_mem _ h)
      · rintro (h | h)
        · exact Or.inl h
        · rcases List.mem_cons.mp h with rfl | h'
          · exact Or.inl hs
          · exact Or.inr h'
    · rw [if_neg hs, ih]
      simp only [List.mem_append, List.mem_singleton, List.mem_cons]
      tauto

theorem mem_dedupFirst (l : List String) (y : String) :
    y ∈ dedupFirst l ↔ y ∈ l := by
  simpa using mem_dedupFirst_aux l [] y

theorem dedupFirst_map_foldl (f : α → String) (l : List α) :
    dedupFirst (l.map f)
      = l.foldl (fun a x => if f x ∈ a then a else a ++ [f x]) [] := by
  simp [dedupFirst, List.foldl_map]

theorem prefill_keys (cands : List String) :
    (prefill cands).map Prod.fst = dedupFirst (cands.map normalizeScope) := by
  rw [prefill, foldSet_keys normalizeScope
    (fun c => (⟨c, "not_specified", none⟩ : PerItem)) cands [],
    dedupFirst_map_foldl]
  rfl

theorem prefill_eq_of_fresh (cands : List String) :
    ∀ m : List (String × PerItem),
      ((m.map Prod.fst) ++ cands.map normalizeScope).Nodup →
      cands.foldl (fun m name =>
        alistSet m (normalizeScope name) ⟨name, "not_specified", none⟩) m
        = m ++ cands.map (fun c => (normalizeScope c, ⟨c, "not_specified", none⟩)) := by
  induction cands with
  | nil => intro m _; simp
  | cons c rest ih =>
    intro m hnd
    simp only [List.foldl_cons]
    have hfresh : normalizeScope c ∉ m.map Prod.fst := by
      intro hmem
      rcases List.nodup_append.mp hnd with ⟨_, _, hdisj⟩
      exact hdisj hmem (by simp)
    rw [alistSet_append_fresh _ _ _ hfresh]
    have hnd' : ((m ++ [(normalizeScope c,
        (⟨c, "not_specified", none⟩ : PerItem))]).map Prod.fst
        ++ rest.map normalizeScope).Nodup := by
      simp only [List.map_append, List.map_cons, List.map_nil, List.map_singleton,
        List.append_assoc, List.singleton_append]
      simpa using hnd
    rw [ih _ hnd']
    simp

theorem prefill_of_nodup (cands : List String)
    (h : (cands.map normalizeScope).Nodup) :
    prefill cands
      = cands.map (fun c => (normalizeScope c, ⟨c, "not_specified", none⟩)) := by
  simpa using prefill_eq_of_fresh cands [] (by simpa using h)

theorem dedupFirst_eq_self_aux (l : List String) :
    ∀ acc : List String, (acc ++ l).Nodup →
      l.foldl (fun a s => if s ∈ a then a else a ++ [s]) acc = acc ++ l := by
  induction l with
  | nil => intro acc _; simp
  | cons s rest ih =>
    intro acc h
    simp only [List.foldl_cons]
    have hs : s ∉ acc := by
      rcases List.nodup_append.mp h with ⟨_, _, hdisj⟩
      exact fun hmem => hdisj hmem (by simp)
    rw [if_neg hs, ih (acc ++ [s]) (by simpa [List.append_assoc] using h)]
    simp

theorem dedupFirst_eq_self (l : List String) (h : l.Nodup) : dedupFirst l = l := by
  simpa using dedupFirst_eq_self_aux l [] (by simpa using h)

/-! ## Lemmas: the excluded level of the precedence order -/

theorem statusStrings_precDefined (s : String) (h : s ∈ statusStrings) :
    precDefined s = true := by
  simp only [statusStrings, List.mem_cons, List.not_mem_nil, or_false] at h
  rcases h with rfl | rfl | rfl <;> rfl

theorem precGT_excluded_imp (s : String) (h : precGT s "excluded" = true) :
    s = "included" := by
  have h2 : precOf "excluded" = some 2 := rfl
  simp only [precGT, h2] at h
  cases hx : precOf s with
  | none => rw [hx] at h; simp at h
  | some x =>
    rw [hx] at h
    have hlt : 2 < x := by simpa using h
    have hle := precOf_le s x hx
    have hx3 : x = 3 := by omega
    exact precOf_three s (by rw [hx, hx3])

theorem collapseStep_excluded (m : List (String × PerItem)) (it : PerItem) (k : String)
    (e₀ : PerItem) (hget : alistGet m k = some e₀) (hs : e₀.status = "excluded")
    (hni : normalizeScope it.name = k → it.status ≠ "included") :
    ∃ e, alistGet (collapseStep m it) k = some e ∧ e.status = "excluded" := by
  by_cases hk : normalizeScope it.name = k
  · simp only [collapseStep]
    by_cases h0 : normalizeScope it.name = ""
    · exact ⟨e₀, by simp [h0, hget], hs⟩
    · have h0' : ¬ k = "" := by
        rw [← hk]
        exact h0
      simp only [if_neg h0, hk, hget, h0']
      have hfalse : ¬ precGT it.status e₀.status = true := by
        rw [hs]
        intro hgt
        exact hni hk (precGT_excluded_imp _ hgt)
      rw [if_neg hfalse]
      cases hpp : e₀.price with
      | none =>
        cases hip : it.price with
        | none => exact ⟨e₀, by simp [h0', hget], hs⟩
        | some pr =>
          exact ⟨{ e₀ with price := some pr }, by simp [h0', alistGet_set_self], hs⟩
      | some v => exact ⟨e₀, by simp [h0', hget], hs⟩
  · rw [collapseStep_get_ne m it k hk]
    exact ⟨e₀, hget, hs⟩

theorem foldCollapse_excluded (kept : List PerItem) (m : List (String × PerItem))
    (k : String) (e₀ : PerItem)
    (hget : alistGet m k = some e₀) (hs : e₀.status = "excluded")
    (hni : ∀ it ∈ kept, normalizeScope it.name = k → it.status ≠ "included") :
    ∃ e, alistGet (kept.foldl collapseStep m) k = some e ∧ e.status = "excluded" := by
  induction kept generalizing m e₀ with
  | nil => exact ⟨e₀, hget, hs⟩
  | cons it rest ih =>
    simp only [List.foldl_cons]
    rcases collapseStep_excluded m it k e₀ hget hs (hni it (by simp)) with ⟨e₁, h₁, hs₁⟩
    exact ih _ e₁ h₁ hs₁ (fun x hx => hni x (List.mem_cons_of_mem _ hx))

theorem collapseStep_nsexcl (m : List (String × PerItem)) (it : PerItem)
    (k : String)
    (hm : ∀ e, alistGet m k = some e →
      e.status = "not_specified" ∨ e.status = "excluded")
    (hit : normalizeScope it.name = k →
      it.status = "not_specified" ∨ it.status = "excluded") :
    ∀ e, alistGet (collapseStep m it) k = some e →
      e.status = "not_specified" ∨ e.status = "excluded" := by
  intro e he
  by_cases hk : normalizeScope it.name = k
  · simp only [collapseStep] at he
    by_cases h0 : normalizeScope it.name = ""
    · exact hm e (by simpa [h0] using he)
    · have h0' : ¬ k = "" := by
        rw [← hk]
        exact h0
      rw [hk] at he
      rw [if_neg h0'] at he
      cases hg : alistGet m k with
      | none =>
        simp only [hg] at he
        rw [alistGet_set_self] at he
        cases he
        exact hit hk
      | some prev =>
        simp only [hg] at he
        by_cases hgt : precGT it.status prev.status
        · rw [if_pos hgt] at he
          rw [alistGet_set_self] at he
          cases he
          exact hit hk
        · rw [if_neg hgt] at he
          cases hpp : prev.price with
          | none =>
            cases hip : it.price with
            | none =>
              simp only [hpp, hip] at he
              exact hm e he
            | some pr =>
              simp only [hpp, hip] at he
              rw [alistGet_set_self] at he
              cases he
              exact hm prev hg
          | some v =>
            simp only [hpp] at he
            exact hm e he
  · rw [collapseStep_get_ne m it k hk] at he
    exact hm e he

theorem collapse_install_excluded (kept : List PerItem) (m : List (String × PerItem))
    (k : String) (hk0 : k ≠ "")
    (hm : ∀ e, alistGet m k = some e →
      e.status = "not_specified" ∨ e.status = "excluded")
    (hkept : ∀ it ∈ kept, normalizeScope it.name = k → it.status ∈ statusStrings)
    (hni : ∀ it ∈ kept, normalizeScope it.name = k → it.status ≠ "included")
    (hex : ∃ it ∈ kept, normalizeScope it.name = k ∧ it.status = "excluded") :
    ∃ e, alistGet (kept.foldl collapseStep m) k = some e ∧ e.status = "excluded" := by
  induction kept generalizing m with
  | nil => simp at hex
  | cons it rest ih =>
    simp only [List.foldl_cons]
    by_cases hit : normalizeScope it.name = k ∧ it.status = "excluded"
    · have hstep : ∃ e, alistGet (collapseStep m it) k = some e ∧ e.status = "excluded" := by
        simp only [collapseStep]
        have h0 : ¬ normalizeScope it.name = "" := by
          rw [hit.1]
          exact hk0
        have hk0' : ¬ k = "" := hk0
        simp only [if_neg h0, hit.1, hk0']
        cases hg : alistGet m k with
        | none =>
          exact ⟨it, by simp [hk0', alistGet_set_self], hit.2⟩
        | some prev =>
          dsimp only
          by_cases hgt : precGT it.status prev.status
          · rw [if_pos hgt]
            exact ⟨it, by simp [hk0', alistGet_set_self], hit.2⟩
          · rcases hm prev hg with hprev | hprev
            · exfalso
              apply hgt
              rw [hit.2, hprev]
              decide
            · rw [if_neg hgt]
              cases hpp : prev.price with
              | none =>
                cases hip : it.price with
                | none => exact ⟨prev, by simp [hk0', hg], hprev⟩
                | some pr =>
                  exact ⟨{ prev with price := some pr },
                    by simp [hk0', alistGet_set_self], hprev⟩
              | some v => exact ⟨prev, by simp [hk0', hg], hprev⟩
      rcases hstep with ⟨e₁, h₁, hs₁⟩
      exact foldCollapse_excluded rest _ k e₁ h₁ hs₁
        (fun x hx => hni x (List.mem_cons_of_mem _ hx))
    · rcases hex with ⟨it', hmem, hk', hs'⟩
      rcases List.mem_cons.mp hmem with rfl | hmem'
      · exact absurd ⟨hk', hs'⟩ hit
      · refine ih (collapseStep m it) ?_
          (fun x hx => hkept x (List.mem_cons_of_mem _ hx))
          (fun x hx => hni x (List.mem_cons_of_mem _ hx))
          ⟨it', hmem', hk', hs'⟩
        refine collapseStep_nsexcl m it k hm (fun hh => ?_)
        have hmem0 : it.status ∈ statusStrings := hkept it (by simp) hh
        have hne : it.status ≠ "included" := hni it (by simp) hh
        simp only [statusStrings, List.mem_cons, List.not_mem_nil, or_false] at hmem0
        rcases hmem0 with h' | h' | h'
        · exact absurd h' hne
        · exact Or.inr h'
        · exact Or.inl h'

/-! ## Lemmas: statuses through reconciliation -/

theorem canonizeName_status (idx : List (String × String)) (a a' : RawItem)
    (h : canonizeName idx a = .ok a') : a'.status = a.status := by
  cases hn : a.name with
  | none => simp [canonizeName, hn] at h
  | some nm =>
    simp only [canonizeName, hn] at h
    cases h
    rfl

theorem resolveOne_inl_status (idx : List (String × String)) (cands candSet : List String)
    (ntd : List (String × String)) (it : RawItem) (k : PerItem)
    (h : resolveOne idx cands candSet ntd it = .ok (.inl k)) :
    k.status = it.status.getD "undefined" := by
  simp only [resolveOne] at h
  split at h
  · cases h
    rfl
  · split at h
    · split at h
      · cases h
        rfl
      · cases h
    · cases h

theorem injectAlts_mem (alts : List String) (kept : List PerItem) :
    ∀ it ∈ injectAlts alts kept, it ∈ kept ∨ it.status = "not_specified" := by
  have main : ∀ (l : List String) (ks : List PerItem),
      ∀ it ∈ l.foldl (fun ks a =>
        match parseAlt a with
        | none => ks
        | some (nm, pr) =>
          if ks.any (fun k => normalizeScope k.name = normalizeScope nm) then ks
          else ks ++ [⟨nm, "not_specified", some pr⟩]) ks,
        it ∈ ks ∨ it.status = "not_specified" := by
    intro l
    induction l with
    | nil => intro ks it hit; exact Or.inl hit
    | cons a rest ih =>
      intro ks it hit
      simp only [List.foldl_cons] at hit
      cases hpa : parseAlt a with
      | none =>
        simp only [hpa] at hit
        exact ih ks it hit
      | some np =>
        obtain ⟨nm, pr⟩ := np
        simp only [hpa] at hit
        by_cases hex : ks.any (fun k => normalizeScope k.name = normalizeScope nm)
        · rw [if_pos hex] at hit
          exact ih ks it hit
        · rw [if_neg hex] at hit
          rcases ih _ it hit with hmem | hns
          · rcases List.mem_append.mp hmem with hmem' | hmem'
            · exact Or.inl hmem'
            · simp only [List.mem_singleton] at hmem'
              rw [hmem']
              exact Or.inr rfl
          · exact Or.inr hns
  exact main alts kept

theorem collapseItems_status (cands : List String) (kept : List PerItem)
    (S : List String) (hns : "not_specified" ∈ S) (hk : ∀ it ∈ kept, it.status ∈ S) :
    ∀ e ∈ collapseItems cands kept, e.status ∈ S := by
  intro e he
  simp only [collapseItems, List.mem_map] at he
  obtain ⟨p, hp, rfl⟩ := he
  refine foldCollapse_status S kept (prefill cands) (fun q hq => ?_) hk p hp
  rw [(prefill_status cands q hq).1]
  exact hns

theorem reconcile_inv (idx : List (String × String)) (cands : List String)
    (ps : List RawItem) (alts : List String)
    (items keptA : List PerItem) (dropped : List UnmappedItem)
    (h : reconcile idx cands ps alts = .ok (items, keptA, dropped)) :
    ∃ canon resolved,
      mapME (canonizeName idx) (ps.filter itemFilter) = .ok canon ∧
      mapME (resolveOne idx cands (dedupFirst (cands.map normalizeScope))
        (candNormToDisplay idx cands)) canon = .ok resolved ∧
      keptA = injectAlts alts (resolved.filterMap (fun r => match r with
        | .inl k => some k
        | .inr _ => none)) ∧
      items = collapseItems cands keptA ∧
      dropped = resolved.filterMap (fun r => match r with
        | .inr d => some d
        | .inl _ => none) := by
  simp only [reconcile, bind, Except.bind] at h
  cases h1 : mapME (canonizeName idx) (ps.filter itemFilter) with
  | error e =>
    simp only [h1] at h
    exact absurd h (by simp)
  | ok canon =>
    simp only [h1] at h
    cases h2 : mapME (resolveOne idx cands (dedupFirst (cands.map normalizeScope))
        (candNormToDisplay idx cands)) canon with
    | error e =>
      simp only [h2] at h
      exact absurd h (by simp)
    | ok resolved =>
      simp only [h2, pure, Except.pure, Except.ok.injEq, Prod.mk.injEq] at h
      refine ⟨canon, resolved, rfl, h2, h.2.1.symm, ?_, h.2.2.symm⟩
      rw [← h.2.1]
      exact h.1.symm

theorem reconcile_status (idx : List (String × String)) (cands : List String)
    (ps : List RawItem) (alts : List String)
    (items keptA : List PerItem) (dropped : List UnmappedItem)
    (h : reconcile idx cands ps alts = .ok (items, keptA, dropped)) :
    ∀ e ∈ items, e.status = "not_specified" ∨
      e.status ∈ ps.filterMap (fun it => it.status) := by
  obtain ⟨canon, resolved, h1, h2, hkept, hitems, _⟩ := reconcile_inv idx cands ps alts items keptA dropped h
  subst hkept hitems
  intro e he
  have hS := collapseItems_status cands _
    ("not_specified" :: ps.filterMap (fun it => it.status)) (by simp) (fun it hit => ?_) e he
  · rcases List.mem_cons.mp hS with h' | h'
    · exact Or.inl h'
    · exact Or.inr h'
  · rcases injectAlts_mem alts _ it hit with hmem | hns
    · -- it came from a resolved oracle item
      simp only [List.mem_filterMap] at hmem
      obtain ⟨r, hr, hmatch⟩ := hmem
      have hinl : r = .inl it := by
        cases r with
        | inl k => simp at hmatch; rw [hmatch]
        | inr d => simp at hmatch
      subst hinl
      obtain ⟨a, ha, hra⟩ := mapME_mem _ canon resolved h2 (.inl it) hr
      obtain ⟨a0, ha0, ha0a⟩ := mapME_mem _ (ps.filter itemFilter) canon h1 a ha
      have hst : it.status = a.status.getD "undefined" :=
        resolveOne_inl_status idx cands _ _ a it hra
      have hst0 : a.status = a0.status := canonizeName_status idx a0 a ha0a
      have hfil := List.mem_filter.mp ha0
      have hsome : a0.status.isSome := by
        have := hfil.2
        simp only [itemFilter, Bool.and_eq_true] at this
        exact this.1
      cases hs0 : a0.status with
      | none => rw [hs0] at hsome; simp at hsome
      | some s =>
        rw [hst, hst0, hs0]
        simp only [Option.getD_some]
        refine List.mem_cons_of_mem _ ?_
        simp only [List.mem_filterMap]
        exact ⟨a0, hfil.1, hs0⟩
    · rw [hns]
      simp

theorem reconcileRetry_inv (idx : List (String × String)) (cands : List String)
    (ps : List RawItem)
    (items kept0 : List PerItem) (dropped : List UnmappedItem)
    (h : reconcileRetry idx cands ps = .ok (items, kept0, dropped)) :
    ∃ resolved,
      mapME (resolveOne idx cands (dedupFirst (cands.map normalizeScope))
        (candNormToDisplay idx cands)) (ps.filter itemFilter) = .ok resolved ∧
      kept0 = resolved.filterMap (fun r => match r with
        | .inl k => some k
        | .inr _ => none) ∧
      items = collapseItems cands kept0 := by
  simp only [reconcileRetry, bind, Except.bind] at h
  cases h2 : mapME (resolveOne idx cands (dedupFirst (cands.map normalizeScope))
      (candNormToDisplay idx cands)) (ps.filter itemFilter) with
  | error e =>
    simp only [h2] at h
    exact absurd h (by simp)
  | ok resolved =>
    simp only [h2, pure, Except.pure, Except.ok.injEq, Prod.mk.injEq] at h
    refine ⟨resolved, rfl, h.2.1.symm, ?_⟩
    rw [← h.2.1]
    exact h.1.symm

theorem reconcileRetry_status (idx : List (String × String)) (cands : List String)
    (ps : List RawItem)
    (items kept0 : List PerItem) (dropped : List UnmappedItem)
    (h : reconcileRetry idx cands ps = .ok (items, kept0, dropped)) :
    ∀ e ∈ items, e.status = "not_specified" ∨
      e.status ∈ ps.filterMap (fun it => it.status) := by
  obtain ⟨resolved, h2, hkept, hitems⟩ := reconcileRetry_inv idx cands ps items kept0 dropped h
  subst hkept hitems
  intro e he
  have hS := collapseItems_status cands _
    ("not_specified" :: ps.filterMap (fun it => it.status)) (by simp) (fun it hit => ?_) e he
  · rcases List.mem_cons.mp hS with h' | h'
    · exact Or.inl h'
    · exact Or.inr h'
  · simp only [List.mem_filterMap] at hit
    obtain ⟨r, hr, hmatch⟩ := hit
    have hinl : r = .inl it := by
      cases r with
      | inl k => simp at hmatch; rw [hmatch]
      | inr d => simp at hmatch
    subst hinl
    obtain ⟨a, ha, hra⟩ := mapME_mem _ (ps.filter itemFilter) resolved h2 (.inl it) hr
    have hst : it.status = a.status.getD "undefined" :=
      resolveOne_inl_status idx cands _ _ a it hra
    have hfil := List.mem_filter.mp ha
    have hsome : a.status.isSome := by
      have := hfil.2
      simp only [itemFilter, Bool.and_eq_true] at this
      exact this.1
    cases hs0 : a.status with
    | none => rw [hs0] at hsome; simp at hsome
    | some s =>
      rw [hst, hs0]
      simp only [Option.getD_some]
      refine List.mem_cons_of_mem _ ?_
      simp only [List.mem_filterMap]
      exact ⟨a, hfil.1, hs0⟩

/-! ## Lemmas: the scorer and the merge -/

theorem scoreContractor_inv (idx : List (String × String)) (cands : List String)
    (texts : List DocText) (resp1 : OracleResp) (resp2 : Option OracleResp)
    (r : ScoreResult) (h : scoreContractor idx cands texts resp1 resp2 = .ok r) :
    ∃ items1 kept1 dropped1,
      reconcile idx cands resp1.items (harvestDocs texts).alternates
        = .ok (items1, kept1, dropped1) ∧
      (((kept1.isEmpty && items1.isEmpty) = false ∧
          r = ⟨items1, perTotalOf resp1.total (detectedTotalOf texts),
            resp1.unmapped ++ dropped1, false⟩)
        ∨ ((kept1.isEmpty && items1.isEmpty) = true ∧
          ((resp2 = none ∧
             r = ⟨items1, perTotalOf resp1.total (detectedTotalOf texts),
               resp1.unmapped ++ dropped1, true⟩)
           ∨ (∃ r2 items2 kept2 dropped2, resp2 = some r2 ∧
               reconcileRetry idx cands r2.items = .ok (items2, kept2, dropped2) ∧
               r = ⟨items2, perTotalOf r2.total (detectedTotalOf texts),
                 r2.unmapped ++ dropped1, true⟩)))) := by
  simp only [scoreContractor, bind, Except.bind] at h
  cases hrec : reconcile idx cands resp1.items (harvestDocs texts).alternates with
  | error e =>
    simp only [hrec] at h
    exact absurd h (by simp)
  | ok v =>
    obtain ⟨items1, kept1, dropped1⟩ := v
    simp only [hrec] at h
    refine ⟨items1, kept1, dropped1, rfl, ?_⟩
    by_cases hc : (kept1.isEmpty && items1.isEmpty) = true
    · simp only [hc, if_pos rfl, if_true] at h
      cases hr2 : resp2 with
      | none =>
        simp only [hr2, pure, Except.pure] at h
        refine Or.inr ⟨hc, Or.inl ⟨rfl, ?_⟩⟩
        injection h with h'
        exact h'.symm
      | some r2 =>
        simp only [hr2] at h
        cases hrr : reconcileRetry idx cands r2.items with
        | error e =>
          simp only [hrr] at h
          exact absurd h (by simp)
        | ok v2 =>
          obtain ⟨items2, kept2, dropped2⟩ := v2
          simp only [hrr, pure, Except.pure] at h
          refine Or.inr ⟨hc, Or.inr ⟨r2, items2, kept2, dropped2, rfl, hrr, ?_⟩⟩
          injection h with h'
          exact h'.symm
    · simp only [Bool.not_eq_true] at hc
      simp only [hc, Bool.false_eq_true, if_false, pure, Except.pure] at h
      refine Or.inl ⟨hc, ?_⟩
      injection h with h'
      exact h'.symm

theorem scoreContractor_status (idx : List (String × String)) (cands : List String)
    (texts : List DocText) (resp1 : OracleResp) (resp2 : Option OracleResp)
    (r : ScoreResult) (h : scoreContractor idx cands texts resp1 resp2 = .ok r) :
    ∀ e ∈ r.items, e.status = "not_specified" ∨ e.status ∈ respRawStatuses resp1 ∨
      ∃ r2, resp2 = some r2 ∧ e.status ∈ respRawStatuses r2 := by
  obtain ⟨items1, kept1, dropped1, hrec, hcase⟩ :=
    scoreContractor_inv idx cands texts resp1 resp2 r h
  rcases hcase with ⟨_, hr⟩ | ⟨_, ⟨_, hr⟩ | ⟨r2, items2, kept2, dropped2, hr2, hrr, hr⟩⟩
  · subst hr
    intro e he
    rcases reconcile_status idx cands resp1.items _ _ _ _ hrec e he with h' | h'
    · exact Or.inl h'
    · exact Or.inr (Or.inl h')
  · subst hr
    intro e he
    rcases reconcile_status idx cands resp1.items _ _ _ _ hrec e he with h' | h'
    · exact Or.inl h'
    · exact Or.inr (Or.inl h')
  · subst hr
    intro e he
    rcases reconcileRetry_status idx cands r2.items _ _ _ hrr e he with h' | h'
    · exact Or.inl h'
    · exact Or.inr (Or.inr ⟨r2, hr2, h'⟩)

theorem scoreFold_mem (cands : List String) (inputs : List ContractorInput)
    (acc : List (String × ScoreResult) × List (String × List UnmappedItem))
    (per : List (String × ScoreResult)) (unm : List (String × List UnmappedItem))
    (h : scoreFold cands inputs acc = .ok (per, unm)) :
    ∀ p ∈ per, p ∈ acc.1 ∨ ∃ cd ∈ inputs,
      scoreContractor d23Index cands cd.texts cd.resp1 cd.resp2 = .ok p.2 := by
  induction inputs generalizing acc with
  | nil =>
    simp only [scoreFold] at h
    injection h with h'
    intro p hp
    subst h'
    exact Or.inl hp
  | cons cd rest ih =>
    simp only [scoreFold] at h
    cases hs : scoreContractor d23Index cands cd.texts cd.resp1 cd.resp2 with
    | error e =>
      simp only [hs] at h
      exact absurd h (by simp)
    | ok rres =>
      simp only [hs] at h
      intro p hp
      rcases ih _ h p hp with hacc | ⟨cd', hcd', hsc⟩
      · rcases mem_alistSet _ _ _ _ hacc with h1 | h1
        · exact Or.inl h1
        · refine Or.inr ⟨cd, by simp, ?_⟩
          rw [h1]
          exact hs
      · exact Or.inr ⟨cd', List.mem_cons_of_mem _ hcd', hsc⟩

theorem runPipeline_inv (cands : List String) (inputs : List ContractorInput)
    (rep : Report) (h : runPipeline cands inputs = .ok rep) :
    ∃ per unm, scoreFold cands inputs ([], []) = .ok (per, unm) ∧
      rep = mergeReport cands (inputs.map (fun cd => cd.bid)) per unm := by
  simp only [runPipeline] at h
  cases hs : scoreFold cands inputs ([], []) with
  | error e =>
    simp only [hs] at h
    exact absurd h (by simp)
  | ok pu =>
    obtain ⟨per, unm⟩ := pu
    simp only [hs] at h
    injection h with h'
    exact ⟨per, unm, rfl, h'.symm⟩

theorem cellFor_status (per : List (String × ScoreResult)) (s cid : String) :
    (cellFor per s cid).status = "not_specified" ∨
      ∃ q ∈ per, ∃ it ∈ q.2.items, (cellFor per s cid).status = it.status := by
  simp only [cellFor]
  cases hg : alistGet per cid with
  | none => simp
  | some r =>
    cases hf : r.items.find? (fun it => normalizeScope it.name = s) with
    | none => simp
    | some it =>
      by_cases hemp : it.status = ""
      · simp [hemp]
      · simp only [if_neg hemp]
        exact Or.inr ⟨(cid, r), alistGet_mem _ _ _ hg, it, List.mem_of_find?_eq_some hf, rfl⟩

theorem mem_joinMap (f : α → List β) (l : List α) (x : β) :
    x ∈ joinMap f l ↔ ∃ a ∈ l, x ∈ f a := by
  induction l with
  | nil => simp [joinMap]
  | cons a rest ih =>
    simp only [joinMap, List.mem_append, ih, List.mem_cons]
    constructor
    · rintro (h | ⟨a', ha', hx⟩)
      · exact ⟨a, Or.inl rfl, h⟩
      · exact ⟨a', Or.inr ha', hx⟩
    · rintro ⟨a', ha' | ha', hx⟩
      · subst ha'
        exact Or.inl hx
      · exact Or.inr ⟨a', ha', hx⟩

theorem mergeReport_spec (cands : List String) (bids : List BidRow)
    (per : List (String × ScoreResult)) (unm : List (String × List UnmappedItem)) :
    (mergeReport cands bids per unm).scope_items.Nodup ∧
    ((mergeReport cands bids per unm).contractors.map Prod.fst).Nodup ∧
    (mergeReport cands bids per unm).matrix.length
      = (mergeReport cands bids per unm).scope_items.length ∧
    (∀ p ∈ (mergeReport cands bids per unm).matrix,
      p.2.map Prod.fst = (mergeReport cands bids per unm).contractors.map Prod.fst) ∧
    (∀ p ∈ (mergeReport cands bids per unm).matrix,
      ∀ q ∈ p.2, q.2 = cellFor per p.1 q.1) := by
  have hrowkeys : ∀ s : String,
      ((bids.foldl (fun row b => alistSet row (cidOf b) (cellFor per s (cidOf b))) []).map
        Prod.fst) = dedupFirst (bids.map cidOf) := by
    intro s
    rw [foldSet_keys cidOf (fun b => cellFor per s (cidOf b)) bids [],
      dedupFirst_map_foldl]
    rfl
  refine ⟨?_, ?_, ?_, ?_, ?_⟩
  · simpa [mergeReport] using dedupFirst_nodup _
  · have : (mergeReport cands bids per unm).contractors.map Prod.fst
        = dedupFirst (bids.map cidOf) := by
      simp only [mergeReport, List.map_map]
      have hid : (Prod.fst ∘ fun cid => (cid, contractorTotal (alistGet per cid)))
          = id := by
        funext cid
        rfl
      rw [hid, List.map_id]
    rw [this]
    exact dedupFirst_nodup _
  · simp [mergeReport]
  · intro p hp
    simp only [mergeReport, List.mem_map] at hp
    obtain ⟨s, _, rfl⟩ := hp
    have hck : (mergeReport cands bids per unm).contractors.map Prod.fst
        = dedupFirst (bids.map cidOf) := by
      simp only [mergeReport, List.map_map]
      have hid : (Prod.fst ∘ fun cid => (cid, contractorTotal (alistGet per cid)))
          = id := by
        funext cid
        rfl
      rw [hid, List.map_id]
    rw [hck]
    exact hrowkeys s
  · intro p hp q hq
    simp only [mergeReport, List.mem_map] at hp
    obtain ⟨s, _, rfl⟩ := hp
    have := foldSet_values cidOf (fun b => cellFor per s (cidOf b)) bids []
      (by simp) q hq
    obtain ⟨b, rfl⟩ := this
    rfl

/-! ## The claims -/

/-- Claim C1 (corrected): for every processing run that ends in success, the
final report's matrix has exactly one row per scope item and one cell per
contractor in each row (so exactly scope times contractors cells), and every
cell's status is defined — but it is only guaranteed to lie in the documented
set when every oracle status string does: in general a cell's status is either
one of the three documented values or a status string copied verbatim from an
oracle response of the run. -/
theorem c1_report_invariant (cands : List String) (inputs : List ContractorInput)
    (rep : Report) (h : runPipeline cands inputs = .ok rep) :
    rep.scope_items.Nodup ∧
    (rep.contractors.map Prod.fst).Nodup ∧
    rep.matrix.length = rep.scope_items.length ∧
    (∀ p ∈ rep.matrix, p.2.map Prod.fst = rep.contractors.map Prod.fst) ∧
    (∀ p ∈ rep.matrix, ∀ q ∈ p.2,
      q.2.status ∈ statusStrings ∨ q.2.status ∈ inputStatuses inputs) := by
  obtain ⟨per, unm, hsf, hrep⟩ := runPipeline_inv cands inputs rep h
  subst hrep
  obtain ⟨h1, h2, h3, h4, h5⟩ :=
    mergeReport_spec cands (inputs.map (fun cd => cd.bid)) per unm
  refine ⟨h1, h2, h3, h4, ?_⟩
  intro p hp q hq
  rw [h5 p hp q hq]
  rcases cellFor_status per p.1 q.1 with hns | ⟨pr, hpr, it, hit, hst⟩
  · rw [hns]
    exact Or.inl (by simp [statusStrings])
  · rw [hst]
    rcases scoreFold_mem cands inputs ([], []) per unm hsf pr hpr with habs | ⟨cd, hcd, hsc⟩
    · simp at habs
    · rcases scoreContractor_status d23Index cands cd.texts cd.resp1 cd.resp2 pr.2 hsc it hit
        with hns' | hin | ⟨r2, hr2, hin⟩
      · rw [hns']
        exact Or.inl (by simp [statusStrings])
      · exact Or.inr ((mem_joinMap _ _ _).mpr
          ⟨cd, hcd, List.mem_append.mpr (Or.inl hin)⟩)
      · refine Or.inr ((mem_joinMap _ _ _).mpr
          ⟨cd, hcd, List.mem_append.mpr (Or.inr ?_)⟩)
        rw [hr2]
        exact hin

/-- Witness for C1: the invariant instantiated on a concrete successful
one-contractor run. -/
theorem c1_report_invariant_witness :
    c1wReport.scope_items.Nodup ∧
    (c1wReport.contractors.map Prod.fst).Nodup ∧
    c1wReport.matrix.length = c1wReport.scope_items.length ∧
    (∀ p ∈ c1wReport.matrix, p.2.map Prod.fst = c1wReport.contractors.map Prod.fst) ∧
    (∀ p ∈ c1wReport.matrix, ∀ q ∈ p.2,
      q.2.status ∈ statusStrings ∨ q.2.status ∈ inputStatuses c1wInputs) :=
  c1_report_invariant ["Ductwork"] c1wInputs c1wReport (by with_unfolding_all rfl)

set_option maxRecDepth 8000 in
/-- Counterexample for C1 as frozen: a successful run over one 130-character
candidate yields a matrix cell whose status is the oracle's literal string
`maybe`, outside the documented status set (the truncated normalization is
not idempotent, so the pre-filled `not_specified` row and the item's row have
different keys and the item's status leaks through `cellFor`). -/
theorem c1_status_set_counterexample :
    (runPipeline [c1cxCand] c1cxInputs).map (fun rep =>
        rep.matrix.map (fun p => p.2.map (fun q => q.2.status)))
      = .ok [["not_specified"], ["not_specified"], ["maybe"]] ∧
    "maybe" ∉ statusStrings :=
  ⟨by with_unfolding_all rfl, by decide⟩

/-- Claim C2 (corrected): a candidate scope item to which no kept
(post-injection) item resolves keeps its pre-filled row through the collapse:
status `not_specified`, price null, and that row is among the output items.
(As frozen the claim is false: a heuristically detected alternate that was
never mentioned by the oracle is injected as a kept item and back-fills a
price onto its row.) -/
theorem c2_unmentioned_default (idx : List (String × String)) (cands : List String)
    (ps : List RawItem) (alts : List String) (items keptA : List PerItem)
    (dropped : List UnmappedItem) (k : String)
    (h : reconcile idx cands ps alts = .ok (items, keptA, dropped))
    (hk : k ∈ cands.map normalizeScope)
    (hno : ∀ it ∈ keptA, normalizeScope it.name ≠ k) :
    ∃ e, alistGet (collapsedMapOf cands keptA) k = some e ∧
      e.status = "not_specified" ∧ e.price = none ∧ e ∈ items := by
  obtain ⟨canon, resolved, h1, h2, hkept, hitems, hdrop⟩ :=
    reconcile_inv idx cands ps alts items keptA dropped h
  have hkeys : k ∈ (prefill cands).map Prod.fst := by
    rw [prefill_keys]
    exact (mem_dedupFirst _ _).mpr hk
  have hsome : (alistGet (prefill cands) k).isSome := alistGet_isSome_of_mem _ _ hkeys
  cases hg : alistGet (prefill cands) k with
  | none =>
    rw [hg] at hsome
    simp at hsome
  | some e₀ =>
    have hmem := alistGet_mem _ _ _ hg
    obtain ⟨hst, hpr⟩ := prefill_status cands _ hmem
    have hfinal : alistGet (collapsedMapOf cands keptA) k = some e₀ := by
      rw [collapsedMapOf, foldCollapse_get_ne keptA (prefill cands) k hno]
      exact hg
    refine ⟨e₀, hfinal, hst, hpr, ?_⟩
    rw [hitems]
    simp only [collapseItems]
    exact List.mem_map.mpr ⟨(k, e₀), alistGet_mem _ _ _ hfinal, rfl⟩

/-- Witness for C2: a run with an empty oracle response leaves the single
candidate's row pre-filled. -/
theorem c2_unmentioned_default_witness :
    ∃ e, alistGet (collapsedMapOf ["Ductwork"] ([] : List PerItem)) "Ductwork"
        = some e ∧
      e.status = "not_specified" ∧ e.price = none ∧
      e ∈ ([⟨"Ductwork", "not_specified", none⟩] : List PerItem) :=
  c2_unmentioned_default d23Index ["Ductwork"] [] []
    [⟨"Ductwork", "not_specified", none⟩] [] [] "Ductwork"
    (by rfl) (by decide) (by simp)

/-- Counterexample for C2 as frozen: the oracle response is empty, yet the
candidate `Alternate: Roof upgrade` ends with price 7600 (back-filled from
the heuristically parsed alternates harvested out of the documents), so its
reconciled Scored Item does not have a null price. -/
theorem c2_price_null_counterexample :
    scoreContractor d23Index ["Alternate: Roof upgrade"]
      [⟨"doc.pdf", "ALTERNATES:\n1. Roof upgrade $7,600"⟩] ⟨[], none, []⟩ none
      = .ok ⟨[⟨"Alternate: Roof upgrade", "not_specified", some 7600⟩],
          none, [], false⟩ ∧
    some (7600 : ℚ) ≠ none :=
  ⟨by with_unfolding_all rfl, by simp⟩

/-- Claim C3 (confirmed): among status strings with a defined precedence, the
collapse resolves conflicts by `included > excluded > not_specified` — if any
item targeting key `k` is `included` the merged row is `included` regardless
of order, and if none is `included` but some is `excluded` the merged row is
`excluded`. -/
theorem c3_status_precedence (cands : List String) (kept : List PerItem) (k : String)
    (hk0 : k ≠ "")
    (hall : ∀ it ∈ kept, normalizeScope it.name = k → it.status ∈ statusStrings) :
    ((∃ it ∈ kept, normalizeScope it.name = k ∧ it.status = "included") →
      ∃ e, alistGet (collapsedMapOf cands kept) k = some e ∧
        e.status = "included") ∧
    (((∀ it ∈ kept, normalizeScope it.name = k → it.status ≠ "included") ∧
        (∃ it ∈ kept, normalizeScope it.name = k ∧ it.status = "excluded")) →
      ∃ e, alistGet (collapsedMapOf cands kept) k = some e ∧
        e.status = "excluded") := by
  unfold collapsedMapOf
  constructor
  · intro hex
    refine collapse_install_included kept (prefill cands) k hk0 (fun e he => ?_)
      (fun it hit hkk => statusStrings_precDefined _ (hall it hit hkk)) hex
    have hmem := alistGet_mem _ _ _ he
    rw [(prefill_status cands _ hmem).1]
    rfl
  · rintro ⟨hni, hex⟩
    refine collapse_install_excluded kept (prefill cands) k hk0 (fun e he => ?_)
      hall hni hex
    have hmem := alistGet_mem _ _ _ he
    exact Or.inl (prefill_status cands _ hmem).1

/-- Witness for C3: an `excluded` answer followed by an `included` answer for
the same candidate collapses to `included`. -/
theorem c3_status_precedence_witness :
    ∃ e, alistGet (collapsedMapOf ["Ductwork"]
        [⟨"Ductwork", "excluded", some 100⟩, ⟨"Ductwork", "included", some 200⟩])
        "Ductwork" = some e ∧ e.status = "included" :=
  (c3_status_precedence ["Ductwork"]
    [⟨"Ductwork", "excluded", some 100⟩, ⟨"Ductwork", "included", some 200⟩]
    "Ductwork" (by decide) (by decide)).1 (by decide)

/-- Claim C4 (corrected): the collapse emits exactly one Scored Item per
candidate whenever the candidate keys are distinct and every kept item
resolves onto a candidate key (or normalizes to the empty string).  (As
frozen the claim is false: an injected alternate whose normalized title is
not a candidate key adds an extra row, so the output can exceed N.) -/
theorem c4_item_count (idx : List (String × String)) (cands : List String)
    (ps : List RawItem) (alts : List String) (items keptA : List PerItem)
    (dropped : List UnmappedItem)
    (h : reconcile idx cands ps alts = .ok (items, keptA, dropped))
    (hnd : (cands.map normalizeScope).Nodup)
    (hin : ∀ it ∈ keptA, normalizeScope it.name ∈ cands.map normalizeScope ∨
      normalizeScope it.name = "") :
    items.length = cands.length := by
  obtain ⟨canon, resolved, h1, h2, hkept, hitems, hdrop⟩ :=
    reconcile_inv idx cands ps alts items keptA dropped h
  subst hitems
  have hkeys : (collapsedMapOf cands keptA).map Prod.fst
      = (prefill cands).map Prod.fst := by
    unfold collapsedMapOf
    refine foldCollapse_keys keptA (prefill cands) (fun it hit => ?_)
    rcases hin it hit with hmem | hemp
    · refine Or.inl ?_
      rw [prefill_keys]
      exact (mem_dedupFirst _ _).mpr hmem
    · exact Or.inr hemp
  have hlen : (collapsedMapOf cands keptA).length = (prefill cands).length := by
    have hc := congrArg List.length hkeys
    simpa using hc
  have hpre : (prefill cands).length = cands.length := by
    have hc := congrArg List.length (prefill_keys cands)
    rw [dedupFirst_eq_self _ hnd] at hc
    simpa using hc
  simp only [collapseItems, List.length_map]
  rw [hlen, hpre]

/-- Witness for C4: an empty oracle response over one candidate yields exactly
one Scored Item. -/
theorem c4_item_count_witness :
    ([⟨"Ductwork", "not_specified", none⟩] : List PerItem).length
      = (["Ductwork"] : List String).length :=
  c4_item_count d23Index ["Ductwork"] [] [] [⟨"Ductwork", "not_specified", none⟩]
    [] [] (by rfl) (by decide) (by simp)

/-- Counterexample for C4 as frozen: with one candidate and one detected
alternate in the documents, the scorer outputs two Scored Items. -/
theorem c4_item_count_counterexample :
    scoreContractor d23Index ["Ductwork"]
      [⟨"doc.pdf", "ALTERNATES:\n1. Roof upgrade with new membrane $7,600"⟩]
      ⟨[⟨none, some "Ductwork", some "included", some 300, none⟩], none, []⟩ none
      = .ok ⟨[⟨"Ductwork", "included", some 300⟩,
          ⟨"Alternate: Roof upgrade with new membrane", "not_specified", some 7600⟩],
          none, [], false⟩ ∧
    ([⟨"Ductwork", "included", some 300⟩,
      ⟨"Alternate: Roof upgrade with new membrane", "not_specified", some 7600⟩] :
        List PerItem).length ≠ (["Ductwork"] : List String).length :=
  ⟨by with_unfolding_all rfl, by decide⟩

/-- Claim C5 (code bug): the claimed resolution order is unreachable for
index-only items — a returned item carrying a valid numeric
`candidate_index` in range but no `name` passes the item filter, yet the
name-canonicalization loop that runs before resolution calls
`canonize(scopeIndex, it.name)` on the undefined name and throws a
`TypeError`, aborting the whole request instead of resolving step (a). -/
theorem c5_index_only_item_crash :
    reconcile d23Index ["Ductwork"]
      [⟨some 1, none, some "included", none, none⟩] []
      = .error "TypeError: canonize of undefined name" := by
  with_unfolding_all rfl

/-- Claim C6 (corrected): once the merged row for a key carries a non-null
price, later items that do not strictly raise the status precedence leave the
row — and hence its price — unchanged.  (As frozen the claim is false: a
later item of strictly higher precedence replaces the whole row, price
included.) -/
theorem c6_price_persistence (cands : List String) (pre post : List PerItem)
    (k : String) (e : PerItem) (v : ℚ)
    (hget : alistGet (collapsedMapOf cands pre) k = some e)
    (hv : e.price = some v)
    (hng : ∀ it ∈ post, normalizeScope it.name = k →
      precGT it.status e.status = false) :
    alistGet (collapsedMapOf cands (pre ++ post)) k = some e := by
  unfold collapsedMapOf at hget ⊢
  rw [List.foldl_append]
  exact foldCollapse_keep post _ k e v hget hv hng

/-- Witness for C6: an `excluded` row priced 100 survives a second `excluded`
item priced 200. -/
theorem c6_price_persistence_witness :
    alistGet (collapsedMapOf ["Ductwork"]
        ([⟨"Ductwork", "excluded", some 100⟩] ++ [⟨"Ductwork", "excluded", some 200⟩]))
      "Ductwork" = some ⟨"Ductwork", "excluded", some 100⟩ :=
  c6_price_persistence ["Ductwork"] [⟨"Ductwork", "excluded", some 100⟩]
    [⟨"Ductwork", "excluded", some 200⟩] "Ductwork"
    ⟨"Ductwork", "excluded", some 100⟩ 100
    (by with_unfolding_all rfl) rfl (by decide)

/-- Counterexample for C6 as frozen: an `excluded` item priced 100 followed by
an `included` item priced 200 for the same candidate merges to price 200 —
the later price overwrites the earlier non-null one because the precedence
branch replaces the whole row. -/
theorem c6_first_price_counterexample :
    reconcile d23Index ["Ductwork"]
      [⟨none, some "Ductwork", some "excluded", some 100, none⟩,
       ⟨none, some "Ductwork", some "included", some 200, none⟩] []
      = .ok ([⟨"Ductwork", "included", some 200⟩],
          [⟨"Ductwork", "excluded", some 100⟩, ⟨"Ductwork", "included", some 200⟩],
          []) ∧
    some (200 : ℚ) ≠ some (100 : ℚ) :=
  ⟨by with_unfolding_all rfl, by with_unfolding_all decide⟩

/-- Claim C7 (corrected): the reported total equals the explicit oracle total
when numeric, otherwise the total detected in the document evidence when one
exists, otherwise the sum of included prices when positive, otherwise null.
(As frozen the claim is false: the evidence-detected total takes priority
over the included-price sum.) -/
theorem c7_total_rule (idx : List (String × String)) (cands : List String)
    (texts : List DocText) (resp1 : OracleResp) (resp2 : Option OracleResp)
    (r : ScoreResult) (h : scoreContractor idx cands texts resp1 resp2 = .ok r) :
    contractorTotal (some r)
      = totalRuleSpec (oracleTotalUsed resp1 resp2 r.lenientRetry)
          (detectedTotalOf texts) r.items := by
  obtain ⟨items1, kept1, dropped1, hrec, hcase⟩ :=
    scoreContractor_inv idx cands texts resp1 resp2 r h
  rcases hcase with ⟨hc, hr⟩ | ⟨hc, ⟨hr2, hr⟩ | ⟨r2, items2, kept2, dropped2, hr2, hrr, hr⟩⟩
  · subst hr
    simp only [contractorTotal, totalRuleSpec, oracleTotalUsed, perTotalOf]
    cases resp1.total <;> cases detectedTotalOf texts <;> simp
  · subst hr
    subst hr2
    simp only [contractorTotal, totalRuleSpec, oracleTotalUsed, perTotalOf]
    cases resp1.total <;> cases detectedTotalOf texts <;> simp
  · subst hr
    subst hr2
    simp only [contractorTotal, totalRuleSpec, oracleTotalUsed, perTotalOf]
    cases r2.total <;> cases detectedTotalOf texts <;> simp

/-- Witness for C7: the rule instantiated on a concrete scoring run whose
oracle total is absent and whose documents carry `TOTAL BID: $5,000`. -/
theorem c7_total_rule_witness :
    contractorTotal (some c7wResult)
      = totalRuleSpec (oracleTotalUsed c7wResp none c7wResult.lenientRetry)
          (detectedTotalOf c7wTexts) c7wResult.items :=
  c7_total_rule d23Index ["Ductwork"] c7wTexts c7wResp none c7wResult
    (by with_unfolding_all rfl)

/-- Counterexample for C7 as frozen: the oracle total is absent and the
included-price sum is 300, yet the reported contractor total is the
evidence-detected 5000 — not the included sum the claim requires. -/
theorem c7_included_sum_counterexample :
    (runPipeline ["Ductwork"] c7cxInputs).map (fun rep => rep.contractors)
      = .ok [("c1", some 5000)] ∧
    c7wResp.total = none ∧
    sumIncluded [⟨"Ductwork", "included", some 300⟩] = 300 ∧
    (5000 : ℚ) ≠ 300 :=
  ⟨by with_unfolding_all rfl, rfl,
   by with_unfolding_all decide, by norm_num⟩

/-- Claim C8 (confirmed): a rate-limit error retries with exponential backoff
(3 s, 6 s, 12 s, each capped at 15 s, plus jitter) up to 4 total attempts, so
three consecutive 429 errors followed by a success still completes the call
and the job; a non-rate-limit error is rethrown after the first call and
fails the job; every backoff delay is at most the 15 s cap (plus jitter below
500 ms). -/
theorem c8_retry_policy :
    (∀ (jitter : Nat → Nat) (oracle : Nat → CallOutcome) (r m0 m1 m2 : String),
      oracle 0 = .err m0 → isRateLimitMsg m0 = true →
      oracle 1 = .err m1 → isRateLimitMsg m1 = true →
      oracle 2 = .err m2 → isRateLimitMsg m2 = true →
      oracle 3 = .ok r →
      callClaudeWithRetry jitter oracle
        = ⟨.ok r, 4, [3000 + jitter 0, 6000 + jitter 1, 12000 + jitter 2]⟩ ∧
      scoringCallOutcome jitter oracle = .continueJob r) ∧
    (∀ (jitter : Nat → Nat) (oracle : Nat → CallOutcome) (msg : String),
      oracle 0 = .err msg → isRateLimitMsg msg = false →
      callClaudeWithRetry jitter oracle = ⟨.error msg, 1, []⟩ ∧
      scoringCallOutcome jitter oracle = .jobFailed msg) ∧
    (∀ attempt : Nat, backoffDelay attempt ≤ 15000) := by
  refine ⟨?_, ?_, ?_⟩
  · intro jitter oracle r m0 m1 m2 h0 hr0 h1 hr1 h2 hr2 h3
    have hcall : callClaudeWithRetry jitter oracle
        = ⟨.ok r, 4, [3000 + jitter 0, 6000 + jitter 1, 12000 + jitter 2]⟩ := by
      have b0 : backoffDelay 0 = 3000 := by norm_num [backoffDelay]
      have b1 : backoffDelay 1 = 6000 := by norm_num [backoffDelay]
      have b2 : backoffDelay 2 = 12000 := by norm_num [backoffDelay]
      simp [callClaudeWithRetry, callAux, h0, hr0, h1, hr1, h2, hr2, h3, b0, b1, b2]
    refine ⟨hcall, ?_⟩
    simp [scoringCallOutcome, hcall]
  · intro jitter oracle msg h0 hrl
    have hcall : callClaudeWithRetry jitter oracle = ⟨.error msg, 1, []⟩ := by
      simp [callClaudeWithRetry, callAux, h0, hrl]
    refine ⟨hcall, ?_⟩
    simp [scoringCallOutcome, hcall]
  · intro attempt
    exact Nat.min_le_left _ _

/-- Witness for C8: three concrete 429 errors then success complete in 4
calls with delays 3007, 6007, 12007 ms; a concrete non-rate-limit error fails
the job after one call. -/
theorem c8_retry_policy_witness :
    (callClaudeWithRetry (fun _ => 7) c8oracle429
        = ⟨.ok "resp", 4, [3007, 6007, 12007]⟩ ∧
      scoringCallOutcome (fun _ => 7) c8oracle429 = .continueJob "resp") ∧
    (callClaudeWithRetry (fun _ => 7) (fun _ => .err "boom")
        = ⟨.error "boom", 1, []⟩ ∧
      scoringCallOutcome (fun _ => 7) (fun _ => .err "boom") = .jobFailed "boom") := by
  constructor
  · have h := c8_retry_policy.1 (fun _ => 7) c8oracle429 "resp"
      "429 rate_limit_error: too many requests"
      "429 rate_limit_error: too many requests"
      "429 rate_limit_error: too many requests"
      rfl (by decide) rfl (by decide) rfl (by decide) rfl
    simpa using h
  · have h := c8_retry_policy.2.1 (fun _ => 7) (fun _ => .err "boom") "boom"
      rfl (by decide)
    simpa using h

/-- Claim C9 (code bug): the zero-result lenient retry can never fire — the
retry guard tests the collapsed item array, which the collapse pre-fills with
one `not_specified` row per candidate, so it is non-empty whenever any
candidate exists: a strict pass returning zero usable items over one
candidate completes with `lenientRetry = false` and a fabricated
`not_specified` row instead of making the second oracle call. -/
theorem c9_zero_result_retry_dead :
    scoreContractor d23Index ["Ductwork"] [] ⟨[], none, []⟩ none
      = .ok ⟨[⟨"Ductwork", "not_specified", none⟩], none, [], false⟩ := by
  with_unfolding_all rfl

/-- Claim C10 (code bug): with one bid and zero documents (hence zero
extractable text) and the oracle credential set, the worker does not fail the
job — it proceeds straight to the candidate-aggregation oracle call with zero
harvested fragments; no check for missing documents or empty text exists on
this path. -/
theorem c10_no_empty_input_check :
    workerPreOracle [⟨"b1", some "c1"⟩] [("b1", [])] true
      = .oracleAggregationCall 0 := by
  with_unfolding_all rfl

end BidLevel
